import Mathlib

/-!
Verification of the turbochess-rs legal chess move generator against its
natural-language specification.  The Rust sources `src/types.rs` and
`src/lib.rs` are shallowly embedded below: `u64` bitboards become `Nat`
(kept below `2^64`, with explicit `% 2^64` where wrapping matters),
fallible operations (Rust panics / `unwrap`) return `Option` or a
dedicated outcome type, and the `while` loops over the set bits of a
bitboard become folds over `List.range 64` guarded by `Nat.testBit`
(which visits exactly the same squares in the same ascending order).
The module `lookup.rs` is referenced by the crate but is not part of the
given sources; every definition that stands in for it carries a doc
comment starting with `Modelled from the spec:`.
-/

set_option maxRecDepth 100000

namespace TC

/-- UMAX is `u64::MAX`. -/
def UMAX : Nat := 2 ^ 64 - 1

/-- compl64 embeds the Rust `!x` bitwise complement on `u64`. -/
def compl64 (x : Nat) : Nat := UMAX ^^^ x

/-- bit_count embeds `BitHelpers::bit_count` (`count_ones`) for values below `2^64`:
the number of set bits among positions `0..63`. -/
def bit_count (n : Nat) : Nat := (List.range 64).countP (fun i => n.testBit i)

/-- bitScanFrom scans for the least set bit of `n` at position `i` or above, with
`fuel` positions left to inspect (returning the one-past-the-end index on failure). -/
def bitScanFrom (n : Nat) : Nat → Nat → Nat
  | i, 0 => i
  | i, fuel + 1 => if n.testBit i then i else bitScanFrom n (i + 1) fuel

/-- bit_scan embeds `BitHelpers::bit_scan` (`trailing_zeros`): the index of the least
set bit among `0..63`, and `64` when there is none (as for `0u64.trailing_zeros()`). -/
def bit_scan (n : Nat) : Nat := bitScanFrom n 0 64

/-- addDir embeds the Rust pattern `(sq as i32 + dir as i32) as usize`: signed addition
followed by the wrapping cast back to a 64-bit unsigned value. -/
def addDir (sq : Nat) (d : Int) : Nat := (((sq : Int) + d).emod (2 ^ 64)).toNat

/-- Move is the 16-bit packed move of `types.rs` (`struct Move(u16)`), embedded as the
underlying numeric value. -/
abbrev Move := Nat

namespace Move

/-- QUIET flag. -/
def QUIET : Nat := 0
/-- CAPTURE flag. -/
def CAPTURE : Nat := 1
/-- DOUBLE_PUSH flag. -/
def DOUBLE_PUSH : Nat := 2
/-- EN_PASSANT flag. -/
def EN_PASSANT : Nat := 3
/-- CASTLE_00 flag. -/
def CASTLE_00 : Nat := 4
/-- CASTLE_000 flag. -/
def CASTLE_000 : Nat := 5
/-- PR_N flag. -/
def PR_N : Nat := 6
/-- PR_B flag. -/
def PR_B : Nat := 7
/-- PR_R flag. -/
def PR_R : Nat := 8
/-- PR_Q flag. -/
def PR_Q : Nat := 9
/-- PC_N flag. -/
def PC_N : Nat := 10
/-- PC_B flag. -/
def PC_B : Nat := 11
/-- PC_R flag. -/
def PC_R : Nat := 12
/-- PC_Q flag. -/
def PC_Q : Nat := 13
/-- EMPTY move. -/
def EMPTY : Move := 0

/-- new embeds `Move::new`: `(from | to << 6 | flag << 12) as u16`. -/
def new (fromSq toSq flag : Nat) : Move :=
  (fromSq ||| (toSq <<< 6) ||| (flag <<< 12)) % 2 ^ 16

/-- fromSq embeds `Move::from` (`self.0 & FROM_MASK`). -/
def fromSq (m : Move) : Nat := m &&& 0x3F

/-- toSq embeds `Move::to` (`(self.0 & TO_MASK) >> 6`). -/
def toSq (m : Move) : Nat := (m &&& 0xFC0) >>> 6

/-- flag embeds `Move::flag` (`(self.0 & FLAG_MASK) >> 12`). -/
def flag (m : Move) : Nat := (m &&& 0xF000) >>> 12

end Move

/-- MoveList embeds `types.rs`'s fixed-capacity move list: the 218-slot array together
with its length is represented by the list of the first `len` stored moves (the
remaining array slots all hold `Move::EMPTY`). -/
structure MoveList where
  moves : List Move
deriving DecidableEq, Repr

namespace MoveList

/-- count embeds `MoveList::count` (returns `self.len`). -/
def count (l : MoveList) : Nat := l.moves.length

/-- add embeds `MoveList::add`: writing `array[len]` panics (`none`) when `len` is not
below the capacity 218, otherwise stores the move and increments `len`. -/
def add (l : MoveList) (fromSq toSq flag : Nat) : Option MoveList :=
  if l.moves.length < 218 then some ⟨l.moves ++ [Move.new fromSq toSq flag]⟩ else none

/-- get embeds `MoveList::get`: the guard `if i <= self.len` panics with
"Out of bounds" (modelled as `none`); otherwise `array[i]` is returned, which is a
stored slot for `i < 218` (necessarily the `EMPTY` padding, since `i > len`) and an
index-out-of-bounds panic for `i ≥ 218`. -/
def get (l : MoveList) (i : Nat) : Option Move :=
  if i ≤ l.moves.length then none
  else if i < 218 then
    some ((l.moves ++ List.replicate (218 - l.moves.length) Move.EMPTY).getD i Move.EMPTY)
  else none

end MoveList

/-- fileOf is the file (0 = a) of a square index. -/
def fileOf (sq : Nat) : Int := (sq % 8 : Nat)

/-- rankOf is the rank (0 = rank 1) of a square index. -/
def rankOf (sq : Nat) : Int := (sq / 8 : Nat)

/-- sgn is the sign of an integer. -/
def sgn (i : Int) : Int := if i < 0 then -1 else if i = 0 then 0 else 1

/-- bbUpto builds the bitboard whose bit `t` (for `t < k`) is set exactly when `p t`. -/
def bbUpto (p : Nat → Bool) : Nat → Nat
  | 0 => 0
  | k + 1 => bbUpto p k ||| (if p k then 1 <<< k else 0)

/-- bbOfPred is the 64-square bitboard of a decidable square predicate. -/
def bbOfPred (p : Nat → Bool) : Nat := bbUpto p 64

/-- testBit_bbUpto: membership in `bbUpto`. -/
theorem testBit_bbUpto (p : Nat → Bool) (k i : Nat) :
    (bbUpto p k).testBit i = (decide (i < k) && p i) := by
  induction k with
  | zero => simp [bbUpto]
  | succ k ih =>
    unfold bbUpto
    rw [Nat.testBit_or, ih]
    have h2 : (if p k then 1 <<< k else 0).testBit i = (decide (i = k) && p k) := by
      by_cases hp : p k
      · simp [hp, Nat.shiftLeft_eq, Nat.testBit_two_pow, eq_comm]
      · simp [hp]
    rw [h2]
    rcases Nat.lt_trichotomy i k with h | h | h
    · simp [h, Nat.lt_succ_of_lt h, Nat.ne_of_lt h]
    · subst h
      simp [Nat.lt_irrefl, Nat.lt_succ_self]
    · have hnk : ¬ i < k := Nat.not_lt.mpr (Nat.le_of_lt h)
      have hnk1 : ¬ i < k + 1 := Nat.not_lt.mpr (Nat.succ_le_of_lt h)
      simp [hnk, hnk1, Nat.ne_of_gt h]

/-- testBit_bbOfPred: membership in `bbOfPred`. -/
theorem testBit_bbOfPred (p : Nat → Bool) (i : Nat) :
    (bbOfPred p).testBit i = (decide (i < 64) && p i) :=
  testBit_bbUpto p 64 i

/-- alignedHV decides whether two distinct squares share a rank or a file. -/
def alignedHV (a b : Nat) : Bool :=
  a ≠ b && (fileOf a = fileOf b || rankOf a = rankOf b)

/-- alignedD12 decides whether two distinct squares share a diagonal or
anti-diagonal. -/
def alignedD12 (a b : Nat) : Bool :=
  a ≠ b && (fileOf b - fileOf a).natAbs = (rankOf b - rankOf a).natAbs

/-- stepOf is the square-index step of one king move from `a` toward `b`. -/
def stepOf (a b : Nat) : Int :=
  8 * sgn (rankOf b - rankOf a) + sgn (fileOf b - fileOf a)

/-- betweenWalk collects the squares from `cur` (inclusive) stepping by `step` until
`target` (exclusive), with fuel bounding the walk. -/
def betweenWalk : Int → Int → Int → Nat → Nat
  | _, _, _, 0 => 0
  | cur, target, step, fuel + 1 =>
    if cur = target then 0
    else (1 <<< cur.toNat) ||| betweenWalk (cur + step) target step fuel

/-- between. Modelled from the spec: `between(a, b)` is the set of squares strictly
between `a` and `b` when they are co-linear on a rank, file or diagonal, and `0`
otherwise (`lookup.rs` is not part of the given sources). -/
def between (a b : Nat) : Nat :=
  if alignedHV a b ∨ alignedD12 a b then
    betweenWalk ((a : Int) + stepOf a b) (b : Int) (stepOf a b) 8
  else 0

/-- hvMask. Modelled from the spec: `HV_MASKS[sq]` is the set of rays emanating from
`sq` along its rank and file, exclusive of `sq` itself. -/
def hvMask (sq : Nat) : Nat := bbOfPred (fun t => alignedHV sq t)

/-- d12Mask. Modelled from the spec: `D12_MASKS[sq]` is the set of rays emanating from
`sq` along its diagonals, exclusive of `sq` itself. -/
def d12Mask (sq : Nat) : Nat := bbOfPred (fun t => alignedD12 sq t)

/-- knightMask. Modelled from the spec: `KNIGHT_MASK[64]` is the attack set of a
knight placed on the given empty square. -/
def knightMask (sq : Nat) : Nat :=
  bbOfPred (fun t =>
    ((fileOf t - fileOf sq).natAbs = 1 && (rankOf t - rankOf sq).natAbs = 2) ||
    ((fileOf t - fileOf sq).natAbs = 2 && (rankOf t - rankOf sq).natAbs = 1))

/-- kingMask. Modelled from the spec: `KING_MASK[64]` is the attack set of a king
placed on the given empty square. -/
def kingMask (sq : Nat) : Nat :=
  bbOfPred (fun t => t ≠ sq &&
    (fileOf t - fileOf sq).natAbs ≤ 1 && (rankOf t - rankOf sq).natAbs ≤ 1)

/-- pawnAtt. Modelled from the spec: `PAWN_ATTACKS[color][64]` is the set of capture
targets of a pawn of that color on that square (one rank forward, one file aside). -/
def pawnAtt (color sq : Nat) : Nat :=
  bbOfPred (fun t => (fileOf t - fileOf sq).natAbs = 1 &&
    rankOf t - rankOf sq = (if color = 0 then 1 else -1))

/-- hv_moves. Modelled from the spec: `hv_moves(sq, occ)` is the exact attack set of a
rook-like piece on `sq` given occupancy `occ`: the squares sharing a rank or file with
`sq` whose connecting segment contains no occupied square. -/
def hv_moves (sq occ : Nat) : Nat :=
  bbOfPred (fun t => alignedHV sq t && decide (between sq t &&& occ = 0))

/-- d12_moves. Modelled from the spec: `d12_moves(sq, occ)` is the exact attack set of
a bishop-like piece on `sq` given occupancy `occ`. -/
def d12_moves (sq occ : Nat) : Nat :=
  bbOfPred (fun t => alignedD12 sq t && decide (between sq t &&& occ = 0))

/-- oo_blockers. Modelled from the spec: the squares between king and short rook that
must be empty and safe (f1,g1 / f8,g8). -/
def oo_blockers (color : Nat) : Nat := if color = 0 then 0x60 else 0x6000000000000000

/-- ooo_blockers. Modelled from the spec: the squares between king and long rook that
must be empty (b1,c1,d1 / b8,c8,d8). -/
def ooo_blockers (color : Nat) : Nat := if color = 0 then 0xE else 0xE00000000000000

/-- ooo_danger. Modelled from the spec: the subset of `ooo_blockers` that must be safe
(c1,d1 / c8,d8) — the b-file square need not be safe, only empty. -/
def ooo_danger (color : Nat) : Nat := if color = 0 then 0xC else 0xC00000000000000

/-- zobrist. Modelled from the spec: `ZOBRIST_PIECES[color][piece][sq]` is a table of
fixed pseudo-random 64-bit constants; here realised by a Weyl sequence on the flat
index, which yields pairwise-distinct odd nonzero keys. -/
def zobrist (c p sq : Nat) : Nat :=
  (((c * 6 + p) * 64 + sq + 1) * 0x9E3779B97F4A7C15) % 2 ^ 64

/-- maskShiftAux: extracting a contiguous `a`-bit field at offset `b` by masking with
`(2^a - 1) <<< b` and shifting is the same as shifting then taking the remainder. -/
theorem maskShiftAux (m a b : Nat) :
    (m &&& ((2 ^ a - 1) <<< b)) >>> b = (m >>> b) % 2 ^ a := by
  apply Nat.eq_of_testBit_eq
  intro j
  simp [Nat.testBit_shiftRight, Nat.testBit_and, Nat.testBit_shiftLeft,
    Nat.testBit_mod_two_pow, Nat.add_sub_cancel_left]
  rcases Nat.lt_or_ge j a with h | h
  · simp [h, Nat.and_comm]
  · simp [Nat.not_lt.mpr h]

/-- moveNewEq: under the C7 bounds, the packed move value is the plain sum of its
fields. -/
theorem moveNewEq (f t g : Nat) (hf : f < 64) (ht : t < 64) (hg : g < 16) :
    Move.new f t g = f + t * 2 ^ 6 + g * 2 ^ 12 := by
  unfold Move.new
  rw [Nat.shiftLeft_eq, Nat.shiftLeft_eq]
  rw [Nat.lor_assoc]
  have h1 : t * 2 ^ 6 ||| g * 2 ^ 12 = g * 2 ^ 12 + t * 2 ^ 6 := by
    have hb : t * 2 ^ 6 < 2 ^ 12 := by nlinarith
    calc t * 2 ^ 6 ||| g * 2 ^ 12 = 2 ^ 12 * g ||| t * 2 ^ 6 := by
          rw [Nat.or_comm]; ring_nf
      _ = 2 ^ 12 * g + t * 2 ^ 6 := (Nat.mul_add_lt_is_or hb g).symm
      _ = g * 2 ^ 12 + t * 2 ^ 6 := by ring
  rw [h1]
  have h2 : f ||| (g * 2 ^ 12 + t * 2 ^ 6) = (g * 2 ^ 12 + t * 2 ^ 6) + f := by
    have hb : f < 2 ^ 6 := hf
    have : g * 2 ^ 12 + t * 2 ^ 6 = 2 ^ 6 * (g * 2 ^ 6 + t) := by ring
    rw [this, Nat.or_comm]
    rw [← Nat.mul_add_lt_is_or hb (g * 2 ^ 6 + t)]
  rw [h2]
  have hlt : g * 2 ^ 12 + t * 2 ^ 6 + f < 2 ^ 16 := by nlinarith
  rw [Nat.mod_eq_of_lt hlt]
  ring

/-- C7: for every `from < 64`, `to < 64`, `flag < 16`, the move built by `Move::new`
satisfies `from() = from`, `to() = to`, `flag() = flag`: the 16-bit packing
`from | to<<6 | flag<<12` is inverted exactly by the accessors. -/
theorem move_new_roundtrip (f t g : Nat) (hf : f < 64) (ht : t < 64) (hg : g < 16) :
    Move.fromSq (Move.new f t g) = f ∧ Move.toSq (Move.new f t g) = t ∧
      Move.flag (Move.new f t g) = g := by
  rw [moveNewEq f t g hf ht hg]
  refine ⟨?_, ?_, ?_⟩
  · unfold Move.fromSq
    have : (0x3F : Nat) = 2 ^ 6 - 1 := by norm_num
    rw [this, Nat.and_pow_two_sub_one_eq_mod]
    omega
  · unfold Move.toSq
    have : (0xFC0 : Nat) = (2 ^ 6 - 1) <<< 6 := by norm_num [Nat.shiftLeft_eq]
    rw [this, maskShiftAux, Nat.shiftRight_eq_div_pow]
    omega
  · unfold Move.flag
    have : (0xF000 : Nat) = (2 ^ 4 - 1) <<< 12 := by norm_num [Nat.shiftLeft_eq]
    rw [this, maskShiftAux, Nat.shiftRight_eq_div_pow]
    omega

/-- move_new_roundtrip_witness: the C7 theorem applied at the concrete arguments
`from = 12`, `to = 28`, `flag = 2` (the double push e2e4). -/
theorem move_new_roundtrip_witness :
    Move.fromSq (Move.new 12 28 2) = 12 ∧ Move.toSq (Move.new 12 28 2) = 28 ∧
      Move.flag (Move.new 12 28 2) = 2 :=
  move_new_roundtrip 12 28 2 (by decide) (by decide) (by decide)

/-- C9: for every MoveList with `count() = n` and every index `i ≤ n` — which includes
every in-range index `i < n` — `MoveList::get(i)` panics with "Out of bounds", and a
stored array slot is only ever returned when `i > n` (and `i` is within the backing
array), so `get` never successfully retrieves a move at a valid index. -/
theorem movelist_get_panics (l : MoveList) (i : Nat) (h : i ≤ l.count) :
    l.get i = none ∧ ∀ j, l.count < j → j < 218 → ∃ m, l.get j = some m := by
  constructor
  · unfold MoveList.get
    simp [MoveList.count] at h
    simp [h]
  · intro j hj hj218
    unfold MoveList.get
    simp [MoveList.count] at hj
    rw [if_neg (by omega), if_pos hj218]
    exact ⟨_, rfl⟩

/-- movelist_get_panics_witness: the C9 theorem applied to a concrete one-element move
list at the valid index `0 ≤ count = 1`. -/
theorem movelist_get_panics_witness :
    MoveList.get ⟨[Move.new 12 28 2]⟩ 0 = none ∧
      ∀ j, MoveList.count ⟨[Move.new 12 28 2]⟩ < j → j < 218 →
        ∃ m, MoveList.get ⟨[Move.new 12 28 2]⟩ j = some m :=
  movelist_get_panics ⟨[Move.new 12 28 2]⟩ 0 (by decide)

/-- State embeds `lib.rs`'s `struct State`: the per-ply game state frame. -/
structure State where
  turn : Nat
  castling : Nat
  captured : Option Nat
  ep : Option Nat
  hm : Nat
  fm : Nat
deriving DecidableEq, Repr

namespace State

/-- WHITE_00 castling bit. -/
def WHITE_00 : Nat := 1
/-- WHITE_000 castling bit. -/
def WHITE_000 : Nat := 2
/-- WHITE_CASTLING bits. -/
def WHITE_CASTLING : Nat := 3
/-- BLACK_00 castling bit. -/
def BLACK_00 : Nat := 4
/-- BLACK_000 castling bit. -/
def BLACK_000 : Nat := 8
/-- BLACK_CASTLING bits. -/
def BLACK_CASTLING : Nat := 12
/-- CASTLINGS per color. -/
def CASTLINGS (c : Nat) : Nat := if c = 0 then WHITE_CASTLING else BLACK_CASTLING
/-- SHORT right per color. -/
def SHORT (c : Nat) : Nat := if c = 0 then WHITE_00 else BLACK_00
/-- LONG right per color. -/
def LONG (c : Nat) : Nat := if c = 0 then WHITE_000 else BLACK_000
/-- SHORT_TARGET king destination per color (g1/g8). -/
def SHORT_TARGET (c : Nat) : Nat := if c = 0 then 6 else 62
/-- LONG_KING_TARGET king destination per color (c1/c8). -/
def LONG_KING_TARGET (c : Nat) : Nat := if c = 0 then 2 else 58
/-- SHORT_ROOK home corner per color (h1/h8). -/
def SHORT_ROOK (c : Nat) : Nat := if c = 0 then 7 else 63
/-- LONG_ROOK home corner per color (a1/a8). -/
def LONG_ROOK (c : Nat) : Nat := if c = 0 then 0 else 56

/-- new embeds `State::new`: the all-empty frame. -/
def new : State := { turn := 0, castling := 0, captured := none, ep := none, hm := 0, fm := 0 }

/-- can_castle embeds `State::can_castle`. -/
def can_castle (st : State) (side : Nat) : Bool := st.castling &&& side ≠ 0

end State

/-- compl8 embeds the Rust `!m` bitwise complement on the `u8` castling field. -/
def compl8 (m : Nat) : Nat := 255 ^^^ m

/-- Position embeds `lib.rs`'s `struct Position`.  The twelve piece bitboards are the
function `pieces_bb color piece`, the 216-slot history array is the function
`history i` (slots never written hold `State::new()`, exactly as after
`Position::new`). -/
structure Position where
  ply : Nat
  pieces_bb : Nat → Nat → Nat
  history : Nat → State
  hash : Nat
  pin_hv : Nat
  pin_d12 : Nat
  danger : Nat
  checkmask : Nat

/-- updBB is the functional update of one piece bitboard. -/
def updBB (f : Nat → Nat → Nat) (c p v : Nat) : Nat → Nat → Nat :=
  fun c' p' => if c' = c ∧ p' = p then v else f c' p'

/-- updHist is the functional update of one history slot. -/
def updHist (h : Nat → State) (i : Nat) (st : State) : Nat → State :=
  fun j => if j = i then st else h j

/-- cpPairs is the (color, piece) scan order of the Rust loops
`for c in [0, 1] { for p in 0..6 }`. -/
def cpPairs : List (Nat × Nat) :=
  [(0, 0), (0, 1), (0, 2), (0, 3), (0, 4), (0, 5),
   (1, 0), (1, 1), (1, 2), (1, 3), (1, 4), (1, 5)]

/-- colorOnBB embeds `Position::color_on` on a raw bitboard table. -/
def colorOnBB (bbs : Nat → Nat → Nat) (sq : Nat) : Option Nat :=
  (cpPairs.find? (fun cp => (bbs cp.1 cp.2).testBit sq)).map Prod.fst

/-- pieceOnBB embeds `Position::piece_on` on a raw bitboard table. -/
def pieceOnBB (bbs : Nat → Nat → Nat) (sq : Nat) : Option Nat :=
  (cpPairs.find? (fun cp => (bbs cp.1 cp.2).testBit sq)).map Prod.snd

/-- moveQuietBB embeds `Position::move_quiet` acting on the (bitboards, hash) pair:
the piece on `from` is toggled off `from` and onto `to`, and the two Zobrist piece
keys are folded into the hash. -/
def moveQuietBB (bbs : Nat → Nat → Nat) (hash fromSq toSq : Nat) :
    Option ((Nat → Nat → Nat) × Nat) := do
  let c ← colorOnBB bbs fromSq
  let p ← pieceOnBB bbs fromSq
  let bbs' := updBB bbs c p (bbs c p ^^^ ((1 <<< fromSq) ||| (1 <<< toSq)))
  some (bbs', hash ^^^ zobrist c p fromSq ^^^ zobrist c p toSq)

/-- unsetSquareBB embeds `Position::unset_square`: every one of the twelve bitboards
is cleared at `square`, and — exactly as in the source — the Zobrist key of every
(color, piece) pair at that square is XORed into the hash, whether or not the piece
was present. -/
def unsetSquareBB (bbs : Nat → Nat → Nat) (hash square : Nat) :
    (Nat → Nat → Nat) × Nat :=
  cpPairs.foldl
    (fun acc cp =>
      (updBB acc.1 cp.1 cp.2 (acc.1 cp.1 cp.2 &&& compl64 (1 <<< square)),
        acc.2 ^^^ zobrist cp.1 cp.2 square))
    (bbs, hash)

/-- setSquareBB embeds `Position::set_square`: unset the square, then set the bit of
the given (piece, color) and fold in its Zobrist key. -/
def setSquareBB (bbs : Nat → Nat → Nat) (hash square piece color : Nat) :
    (Nat → Nat → Nat) × Nat :=
  let u := unsetSquareBB bbs hash square
  (updBB u.1 color piece (u.1 color piece ||| (1 <<< square)),
    u.2 ^^^ zobrist color piece square)

namespace Position

/-- new embeds `Position::new`. -/
def new : Position :=
  { ply := 0, pieces_bb := fun _ _ => 0, history := fun _ => State.new, hash := 0,
    pin_hv := 0, pin_d12 := 0, danger := 0, checkmask := 0 }

/-- actual_state embeds `Position::actual_state`. -/
def actual_state (P : Position) : State := P.history P.ply

/-- bb_of embeds `Position::bb_of`. -/
def bb_of (P : Position) (color piece : Nat) : Nat := P.pieces_bb color piece

/-- pieces embeds `Position::pieces`. -/
def pieces (P : Position) (piece : Nat) : Nat :=
  P.pieces_bb 0 piece ||| P.pieces_bb 1 piece

/-- colors embeds `Position::colors`. -/
def colors (P : Position) (color : Nat) : Nat :=
  (List.range 6).foldl (fun acc p => acc ||| P.pieces_bb color p) 0

/-- king embeds `Position::king` (bit scan of the king bitboard). -/
def king (P : Position) (color : Nat) : Nat := bit_scan (P.pieces_bb color 5)

/-- hv_sliders embeds `Position::hv_sliders` (rooks and queens). -/
def hv_sliders (P : Position) (color : Nat) : Nat :=
  P.bb_of color 3 ||| P.bb_of color 4

/-- d12_sliders embeds `Position::d12_sliders` (bishops and queens). -/
def d12_sliders (P : Position) (color : Nat) : Nat :=
  P.bb_of color 2 ||| P.bb_of color 4

/-- color_on embeds `Position::color_on`. -/
def color_on (P : Position) (sq : Nat) : Option Nat := colorOnBB P.pieces_bb sq

/-- piece_on embeds `Position::piece_on`. -/
def piece_on (P : Position) (sq : Nat) : Option Nat := pieceOnBB P.pieces_bb sq

/-- occupancy embeds `Position::occupancy`. -/
def occupancy (P : Position) : Nat := P.colors 0 ||| P.colors 1

/-- attackers_from embeds `Position::attackers_from`: the pieces of `color` that
attack square `s` under occupancy `occ`. -/
def attackers_from (P : Position) (s color occ : Nat) : Nat :=
  (pawnAtt (1 - color) s &&& P.pieces_bb color 0)
    ||| (knightMask s &&& P.pieces_bb color 1)
    ||| (d12_moves s occ &&& P.d12_sliders color)
    ||| (hv_moves s occ &&& P.hv_sliders color)

/-- attacks embeds `Position::attacks`: the danger map, i.e. every square attacked by
the opponent with our king removed from the occupancy. -/
def attacks (P : Position) : Nat :=
  let st := P.actual_state
  let o_king := P.king st.turn
  let occ := P.occupancy &&& compl64 (1 <<< o_king)
  let a0 := kingMask (P.king (1 - st.turn))
  let a1 := (List.range 64).foldl
    (fun acc s => if (P.pieces_bb (1 - st.turn) 0).testBit s
      then acc ||| pawnAtt (1 - st.turn) s else acc) a0
  let a2 := (List.range 64).foldl
    (fun acc s => if (P.pieces_bb (1 - st.turn) 1).testBit s
      then acc ||| knightMask s else acc) a1
  let a3 := (List.range 64).foldl
    (fun acc s => if (P.hv_sliders (1 - st.turn)).testBit s
      then acc ||| hv_moves s occ else acc) a2
  (List.range 64).foldl
    (fun acc s => if (P.d12_sliders (1 - st.turn)).testBit s
      then acc ||| d12_moves s occ else acc) a3

end Position

/-- cpSliderStep is the body of the two slider loops of `Position::check_and_pin`,
acting on the accumulator `(checkmask, check_count, pin)`.  The parameter `aligned`
stands for the quick rejection test `line(king, s) & MASKS_2[king] != 0`, which per
the spec (§4.5 step 2) holds exactly when `s` shares a ray of the loop's kind with the
king, and `mask` is the corresponding `HV_MASKS`/`D12_MASKS` entry of the king. -/
def cpSliderStep (sliders ours enemy : Nat) (aligned : Nat → Bool) (mask king : Nat)
    (acc : Nat × Nat × Nat) (s : Nat) : Nat × Nat × Nat :=
  if sliders.testBit s then
    let b1 := between king s &&& mask
    if ¬ aligned s then acc
    else if b1 = 0 then (acc.1 ||| (1 <<< s), acc.2.1 + 1, acc.2.2)
    else if b1 &&& enemy ≠ 0 then acc
    else if b1 &&& ours = 0 then (acc.1 ||| (1 <<< s) ||| b1, acc.2.1 + 1, acc.2.2)
    else if bit_count (b1 &&& ours) = 1 then (acc.1, acc.2.1, acc.2.2 ||| (1 <<< s) ||| b1)
    else acc
  else acc

namespace Position

/-- cpCm0 is the knight/pawn seed of the checkmask in `Position::check_and_pin`. -/
def cpCm0 (P : Position) : Nat :=
  (knightMask (P.king (P.actual_state).turn)
      &&& P.pieces_bb (1 - (P.actual_state).turn) 1)
    ||| (pawnAtt (P.actual_state).turn (P.king (P.actual_state).turn)
      &&& P.pieces_bb (1 - (P.actual_state).turn) 0)

/-- cpHvFold is the orthogonal-slider loop of `Position::check_and_pin`, run from
the knight/pawn seed. -/
def cpHvFold (P : Position) : Nat × Nat × Nat :=
  (List.range 64).foldl
    (cpSliderStep (P.hv_sliders (1 - (P.actual_state).turn))
      (P.colors (P.actual_state).turn) (P.colors (1 - (P.actual_state).turn))
      (fun s => alignedHV (P.king (P.actual_state).turn) s)
      (hvMask (P.king (P.actual_state).turn)) (P.king (P.actual_state).turn))
    (cpCm0 P, bit_count (cpCm0 P), 0)

/-- cpD12Fold is the diagonal-slider loop of `Position::check_and_pin`, run from the
orthogonal loop's checkmask and count with a fresh pin accumulator. -/
def cpD12Fold (P : Position) : Nat × Nat × Nat :=
  (List.range 64).foldl
    (cpSliderStep (P.d12_sliders (1 - (P.actual_state).turn))
      (P.colors (P.actual_state).turn) (P.colors (1 - (P.actual_state).turn))
      (fun s => alignedD12 (P.king (P.actual_state).turn) s)
      (d12Mask (P.king (P.actual_state).turn)) (P.king (P.actual_state).turn))
    ((cpHvFold P).1, (cpHvFold P).2.1, 0)

/-- check_and_pin embeds `Position::check_and_pin`: knight/pawn checks seed the
checkmask and check count, then the two slider loops accumulate slider checks and
pins, and finally a check count of zero fills the checkmask while a double check
zeroes it. -/
def check_and_pin (P : Position) : Nat × Nat × Nat :=
  let a2 := cpD12Fold P
  let cm1 := if a2.2.1 = 0 then UMAX else a2.1
  let cm2 := if a2.2.1 > 1 then 0 else cm1
  (cm2, (cpHvFold P).2.2, a2.2.2)

/-- update_checks embeds `Position::update_checks`. -/
def update_checks (P : Position) : Position :=
  let r := P.check_and_pin
  let P1 := { P with checkmask := r.1, pin_hv := r.2.1, pin_d12 := r.2.2 }
  { P1 with danger := P1.attacks }

/-- in_check embeds `Position::in_check`. -/
def in_check (P : Position) : Bool := P.checkmask ≠ UMAX

end Position

/-- clearRookRightsTo is the repeated make_move block clearing a castling right when
the destination square is a rook home corner whose right is still set in the pre-move
state (used by the four capturing promotions and by CAPTURE). -/
def clearRookRightsTo (stOld : State) (cast toSq : Nat) : Nat :=
  let c1 := if stOld.can_castle State.WHITE_00 ∧ toSq = 7
    then cast &&& compl8 State.WHITE_00 else cast
  let c2 := if stOld.can_castle State.WHITE_000 ∧ toSq = 0
    then c1 &&& compl8 State.WHITE_000 else c1
  let c3 := if stOld.can_castle State.BLACK_00 ∧ toSq = 63
    then c2 &&& compl8 State.BLACK_00 else c2
  if stOld.can_castle State.BLACK_000 ∧ toSq = 56
    then c3 &&& compl8 State.BLACK_000 else c3

/-- clearRookRightsFrom is the make_move block clearing the mover's own castling right
when a rook moves off its home corner (used by QUIET and CAPTURE). -/
def clearRookRightsFrom (stOld : State) (cast fromSq turn : Nat) : Nat :=
  let c1 := if stOld.can_castle (State.SHORT turn) ∧ fromSq = State.SHORT_ROOK turn
    then cast &&& compl8 (State.SHORT turn) else cast
  if stOld.can_castle (State.LONG turn) ∧ fromSq = State.LONG_ROOK turn
    then c1 &&& compl8 (State.LONG turn) else c1

/-- makePromoCapture is the shared body of the four capturing-promotion branches of
`make_move`: unset `from`, record the captured piece, optionally unset `to` again
(the PC_B/PC_R/PC_Q branches do, PC_N does not — `set_square` unsets anyway), place
the promoted piece, and clear the right of a captured home-corner rook. -/
def makePromoCapture (bbs : Nat → Nat → Nat) (hash : Nat) (stOld : State) (f : State)
    (fromSq toSq promoPiece : Nat) (extraUnset : Bool) :
    Option ((Nat → Nat → Nat) × Nat × State) := do
  let u1 := unsetSquareBB bbs hash fromSq
  let cap ← pieceOnBB u1.1 toSq
  let u2 := if extraUnset then unsetSquareBB u1.1 u1.2 toSq else u1
  let u3 := setSquareBB u2.1 u2.2 toSq promoPiece stOld.turn
  some (u3.1, u3.2,
    { f with captured := some cap, castling := clearRookRightsTo stOld f.castling toSq })

namespace Position

/-- makeRes is the flag dispatch of `Position::make_move`: given the pre-move state
`st`, the freshly initialised frame `f0` and the moving piece `p0`, it performs the
board and hash edits of the move and returns the edited bitboards, the new hash, the
updated frame, and whether the branch forces a halfmove reset (the capture-type
branches do). -/
def makeRes (P : Position) (st f0 : State) (p0 : Nat) (mv : Move) :
    Option ((Nat → Nat → Nat) × Nat × State × Bool) :=
  let fl := Move.flag mv
  (if fl = Move.QUIET then do
      let c1 := if p0 = 5 then f0.castling &&& compl8 (State.CASTLINGS st.turn)
        else f0.castling
      let c2 := if p0 = 3 then clearRookRightsFrom st c1 (Move.fromSq mv) st.turn else c1
      let m1 ← moveQuietBB P.pieces_bb P.hash (Move.fromSq mv) (Move.toSq mv)
      some (m1.1, m1.2, { f0 with castling := c2 }, false)
    else if fl = Move.DOUBLE_PUSH then do
      let m1 ← moveQuietBB P.pieces_bb P.hash (Move.fromSq mv) (Move.toSq mv)
      some (m1.1, m1.2,
        { f0 with ep := some (addDir (Move.fromSq mv) (if st.turn = 0 then 8 else -8)) },
        false)
    else if fl = Move.CASTLE_00 then do
      if st.turn = 0 then do
        let m1 ← moveQuietBB P.pieces_bb P.hash 4 6
        let m2 ← moveQuietBB m1.1 m1.2 7 5
        some (m2.1, m2.2, { f0 with castling := f0.castling &&& compl8 State.WHITE_CASTLING },
          false)
      else do
        let m1 ← moveQuietBB P.pieces_bb P.hash 60 62
        let m2 ← moveQuietBB m1.1 m1.2 63 61
        some (m2.1, m2.2, { f0 with castling := f0.castling &&& compl8 State.BLACK_CASTLING },
          false)
    else if fl = Move.CASTLE_000 then do
      if st.turn = 0 then do
        let m1 ← moveQuietBB P.pieces_bb P.hash 4 2
        let m2 ← moveQuietBB m1.1 m1.2 0 3
        some (m2.1, m2.2, { f0 with castling := f0.castling &&& compl8 State.WHITE_CASTLING },
          false)
      else do
        let m1 ← moveQuietBB P.pieces_bb P.hash 60 58
        let m2 ← moveQuietBB m1.1 m1.2 56 59
        some (m2.1, m2.2, { f0 with castling := f0.castling &&& compl8 State.BLACK_CASTLING },
          false)
    else if fl = Move.EN_PASSANT then do
      let m1 ← moveQuietBB P.pieces_bb P.hash (Move.fromSq mv) (Move.toSq mv)
      let u := unsetSquareBB m1.1 m1.2
        (addDir (Move.toSq mv) (if st.turn = 0 then -8 else 8))
      some (u.1, u.2, f0, false)
    else if fl = Move.PR_N then do
      let u1 := unsetSquareBB P.pieces_bb P.hash (Move.fromSq mv)
      let u2 := setSquareBB u1.1 u1.2 (Move.toSq mv) 1 st.turn
      some (u2.1, u2.2, f0, false)
    else if fl = Move.PR_B then do
      let u1 := unsetSquareBB P.pieces_bb P.hash (Move.fromSq mv)
      let u2 := setSquareBB u1.1 u1.2 (Move.toSq mv) 2 st.turn
      some (u2.1, u2.2, f0, false)
    else if fl = Move.PR_R then do
      let u1 := unsetSquareBB P.pieces_bb P.hash (Move.fromSq mv)
      let u2 := setSquareBB u1.1 u1.2 (Move.toSq mv) 3 st.turn
      some (u2.1, u2.2, f0, false)
    else if fl = Move.PR_Q then do
      let u1 := unsetSquareBB P.pieces_bb P.hash (Move.fromSq mv)
      let u2 := setSquareBB u1.1 u1.2 (Move.toSq mv) 4 st.turn
      some (u2.1, u2.2, f0, false)
    else if fl = Move.PC_N then do
      let r ← makePromoCapture P.pieces_bb P.hash st f0 (Move.fromSq mv) (Move.toSq mv) 1 false
      some (r.1, r.2.1, r.2.2, true)
    else if fl = Move.PC_B then do
      let r ← makePromoCapture P.pieces_bb P.hash st f0 (Move.fromSq mv) (Move.toSq mv) 2 true
      some (r.1, r.2.1, r.2.2, true)
    else if fl = Move.PC_R then do
      let r ← makePromoCapture P.pieces_bb P.hash st f0 (Move.fromSq mv) (Move.toSq mv) 3 true
      some (r.1, r.2.1, r.2.2, true)
    else if fl = Move.PC_Q then do
      let r ← makePromoCapture P.pieces_bb P.hash st f0 (Move.fromSq mv) (Move.toSq mv) 4 true
      some (r.1, r.2.1, r.2.2, true)
    else if fl = Move.CAPTURE then do
      let c1 := if p0 = 5 then f0.castling &&& compl8 (State.CASTLINGS st.turn)
        else clearRookRightsTo st f0.castling (Move.toSq mv)
      let c2 := if p0 = 3 then clearRookRightsFrom st c1 (Move.fromSq mv) st.turn else c1
      let cap ← P.piece_on (Move.toSq mv)
      let u1 := unsetSquareBB P.pieces_bb P.hash (Move.toSq mv)
      let m1 ← moveQuietBB u1.1 u1.2 (Move.fromSq mv) (Move.toSq mv)
      some (m1.1, m1.2, { f0 with castling := c2, captured := some cap }, true)
    else none : Option ((Nat → Nat → Nat) × Nat × State × Bool))

/-- make_move embeds `Position::make_move`: push a new history frame (whose `ep` and
`captured` fields are inherited from whatever the slot `history[ply+1]` already
holds, exactly as in the Rust code which only assigns `turn`/`fm`/`hm`/`castling`),
dispatch on the move flag via `makeRes`, settle the halfmove clock, and refresh the
cached masks.  Rust panics (`unwrap` on an empty square, an invalid flag, or a
history overrun) are modelled as `none`. -/
def make_move (P : Position) (mv : Move) : Option Position := do
  let st := P.actual_state
  if P.ply + 1 ≥ 216 then none else do
  let ply' := P.ply + 1
  let fm1 := if st.turn = 1 then st.fm + 1 else st.fm
  let f0 : State := { P.history ply' with
    turn := 1 - st.turn, fm := fm1, hm := st.hm, castling := st.castling }
  let p0 ← P.piece_on (Move.fromSq mv)
  let res ← Position.makeRes P st f0 p0 mv
  let hmFinal := if p0 = 0 ∨ res.2.2.2 then 0 else st.hm + 1
  let frame := { res.2.2.1 with hm := hmFinal }
  some (Position.update_checks
    { ply := ply', pieces_bb := res.1, history := updHist P.history ply' frame,
      hash := res.2.1, pin_hv := P.pin_hv, pin_d12 := P.pin_d12, danger := P.danger,
      checkmask := P.checkmask })

/-- undo_move embeds `Position::undo_move`: clear the frame at the current ply,
decrement the ply, reverse the board edits of the move, and refresh the cached masks.
A ply underflow or an `unwrap` failure is modelled as `none`. -/
def undo_move (P : Position) (mv : Move) : Option Position := do
  let st := P.actual_state
  if P.ply = 0 then none else do
  let hist1 := updHist P.history P.ply State.new
  let ply' := P.ply - 1
  let fl := Move.flag mv
  let res ←
    (if fl = Move.QUIET ∨ fl = Move.DOUBLE_PUSH then
      moveQuietBB P.pieces_bb P.hash (Move.toSq mv) (Move.fromSq mv)
    else if fl = Move.CASTLE_00 then do
      if 1 - st.turn = 0 then do
        let m1 ← moveQuietBB P.pieces_bb P.hash 6 4
        moveQuietBB m1.1 m1.2 5 7
      else do
        let m1 ← moveQuietBB P.pieces_bb P.hash 62 60
        moveQuietBB m1.1 m1.2 61 63
    else if fl = Move.CASTLE_000 then do
      if 1 - st.turn = 0 then do
        let m1 ← moveQuietBB P.pieces_bb P.hash 2 4
        moveQuietBB m1.1 m1.2 3 0
      else do
        let m1 ← moveQuietBB P.pieces_bb P.hash 58 60
        moveQuietBB m1.1 m1.2 59 56
    else if fl = Move.EN_PASSANT then do
      let m1 ← moveQuietBB P.pieces_bb P.hash (Move.toSq mv) (Move.fromSq mv)
      some (setSquareBB m1.1 m1.2
        (addDir (Move.toSq mv) (if 1 - st.turn = 0 then -8 else 8)) 0 st.turn)
    else if fl = Move.PR_N ∨ fl = Move.PR_B ∨ fl = Move.PR_R ∨ fl = Move.PR_Q then do
      let u1 := unsetSquareBB P.pieces_bb P.hash (Move.toSq mv)
      some (setSquareBB u1.1 u1.2 (Move.fromSq mv) 0 (1 - st.turn))
    else if fl = Move.PC_N ∨ fl = Move.PC_B ∨ fl = Move.PC_R ∨ fl = Move.PC_Q then do
      let cap ← st.captured
      let u1 := unsetSquareBB P.pieces_bb P.hash (Move.toSq mv)
      let s1 := setSquareBB u1.1 u1.2 (Move.toSq mv) cap st.turn
      some (setSquareBB s1.1 s1.2 (Move.fromSq mv) 0 (1 - st.turn))
    else if fl = Move.CAPTURE then do
      let cap ← st.captured
      let m1 ← moveQuietBB P.pieces_bb P.hash (Move.toSq mv) (Move.fromSq mv)
      some (setSquareBB m1.1 m1.2 (Move.toSq mv) cap st.turn)
    else none : Option ((Nat → Nat → Nat) × Nat))
  some (Position.update_checks
    { ply := ply', pieces_bb := res.1, history := hist1, hash := res.2,
      pin_hv := P.pin_hv, pin_d12 := P.pin_d12, danger := P.danger,
      checkmask := P.checkmask })

end Position

/-- POut is the observable outcome of `Position::from_str`: a successful parse
(`Ok`), a parse failure returned to the caller (`Err` of the `FromStr` impl), or a
Rust panic. -/
inductive POut (α : Type) where
  | ok (a : α)
  | err (e : String)
  | panicked (msg : String)
deriving Repr

/-- splitCh splits a character list on every occurrence of a separator, like Rust's
`str::split` with a one-character pattern. -/
def splitCh (c : Char) : List Char → List (List Char)
  | [] => [[]]
  | x :: xs =>
    if x = c then [] :: splitCh c xs
    else
      match splitCh c xs with
      | [] => [[x]]
      | h :: t => (x :: h) :: t

/-- digitVal is the numeric value of an ASCII digit character. -/
def digitVal (c : Char) : Nat := c.toNat - 48

/-- pieceFromChar embeds `Piece::from_char`: the piece index of a FEN letter, `none`
for the `unreachable!("Invalid piece character")` panic. -/
def pieceFromChar (c : Char) : Option Nat :=
  if c.toLower = 'p' then some 0
  else if c.toLower = 'n' then some 1
  else if c.toLower = 'b' then some 2
  else if c.toLower = 'r' then some 3
  else if c.toLower = 'q' then some 4
  else if c.toLower = 'k' then some 5
  else none

/-- pieceCharL embeds `Piece::to_char` (lowercase letters; only ever applied to piece
indices below 6 in the embedded code paths). -/
def pieceCharL (p : Nat) : Char :=
  if p = 0 then 'p' else if p = 1 then 'n' else if p = 2 then 'b'
  else if p = 3 then 'r' else if p = 4 then 'q' else if p = 5 then 'k' else '?'

/-- squareChars embeds `Square::to_string`. -/
def squareChars (sq : Nat) : List Char :=
  [Char.ofNat (97 + sq % 8), Char.ofNat (49 + sq / 8)]

/-- sqFromChars embeds `Square::from_str`; `none` models the panics on a too-short
string, a non-digit rank, a rank digit `0` (the `- 1` underflow) or a file character
below `a`. -/
def sqFromChars (cs : List Char) : Option Nat :=
  match cs with
  | c0 :: c1 :: _ =>
    if c0.toLower.toNat < 97 then none
    else if ¬ c1.isDigit then none
    else if digitVal c1 = 0 then none
    else some ((digitVal c1 - 1) * 8 + (c0.toLower.toNat - 97))
  | _ => none

/-- natToCharsAux renders the decimal digits of `n` (empty for `0`), with explicit
fuel to keep the recursion structural. -/
def natToCharsAux : Nat → Nat → List Char
  | 0, _ => []
  | fuel + 1, n =>
    if n = 0 then [] else natToCharsAux fuel (n / 10) ++ [Char.ofNat (48 + n % 10)]

/-- natToChars renders a natural number in decimal, like Rust's `to_string`. -/
def natToChars (n : Nat) : List Char := if n = 0 then ['0'] else natToCharsAux n n

/-- parseNatChars embeds Rust's `str::parse::<usize>` restricted to the digit-only
strings it accepts (`none` models the `unwrap` panic on anything else). -/
def parseNatChars (cs : List Char) : Option Nat :=
  if cs ≠ [] ∧ cs.all Char.isDigit then
    some (cs.foldl (fun a c => a * 10 + digitVal c) 0)
  else none

/-- parseRankChars embeds the inner placement loop of `Position::from_str`: digits
skip squares, letters place a piece at the running square index.  `none` models the
panics (invalid piece letter, or a `1u64 << sq` shift overflow for `sq ≥ 64`). -/
def parseRankChars : List Char → Nat → (Nat → Nat → Nat) →
    Option ((Nat → Nat → Nat) × Nat)
  | [], sq, bbs => some (bbs, sq)
  | c :: rest, sq, bbs =>
    if c.isDigit then parseRankChars rest (sq + digitVal c) bbs
    else do
      let p ← pieceFromChar c
      let color := if c.isUpper then 0 else 1
      if sq ≥ 64 then none
      else parseRankChars rest (sq + 1) (updBB bbs color p (bbs color p ||| (1 <<< sq)))

/-- parseRanksChars embeds the outer placement loop over `ranks.iter().rev()` (the
argument list is already reversed). -/
def parseRanksChars : List (List Char) → Nat → (Nat → Nat → Nat) →
    Option ((Nat → Nat → Nat) × Nat)
  | [], sq, bbs => some (bbs, sq)
  | r :: rest, sq, bbs => do
    let s1 ← parseRankChars r sq bbs
    parseRanksChars rest s1.2 s1.1

/-- poutBind sequences a fallible parse step, propagating `Err` and panics. -/
def poutBind {α β : Type} (x : POut α) (f : α → POut β) : POut β :=
  match x with
  | .ok a => f a
  | .err e => .err e
  | .panicked m => .panicked m

/-- fromStrFields is the field-parsing tail of `Position::from_str` after the
placement and the king check: side to move, castling, en passant target, halfmove
and fullmove counters get written into the ply-0 state frame, then the cached masks
are computed.  Indexing a missing field panics. -/
def fromStrFields (bbs : Nat → Nat → Nat) (params : List (List Char)) : POut Position :=
  if params.length < 6 then .panicked "index out of bounds"
  else
    let p1 := params.getD 1 []
    let p2 := params.getD 2 []
    let p3 := params.getD 3 []
    let p4 := params.getD 4 []
    let p5 := params.getD 5 []
    let turn : Nat := if p1 = ['w'] then 0 else 1
    let castling :=
      (if p2.contains 'K' then State.WHITE_00 else 0)
      ||| (if p2.contains 'Q' then State.WHITE_000 else 0)
      ||| (if p2.contains 'k' then State.BLACK_00 else 0)
      ||| (if p2.contains 'q' then State.BLACK_000 else 0)
    poutBind
      (if p3 ≠ ['-'] then
        match sqFromChars p3 with
        | some s => .ok (some s)
        | none => .panicked "invalid square"
      else .ok none) fun ep =>
    poutBind
      (if p4 ≠ ['-'] then
        match parseNatChars p4 with
        | some n => .ok n
        | none => .panicked "invalid number"
      else .ok 0) fun hm =>
    poutBind
      (if p5 ≠ ['-'] then
        match parseNatChars p5 with
        | some n => .ok n
        | none => .panicked "invalid number"
      else .ok 0) fun fm =>
    .ok (Position.update_checks
      { Position.new with
        pieces_bb := bbs,
        history := updHist (fun _ => State.new) 0
          { turn := turn, castling := castling, captured := none, ep := ep,
            hm := hm, fm := fm } })

/-- fromStrChars embeds `Position::from_str` (the `FromStr` impl) on the character
list of the input: split into fields, parse the placement, panic when a king is
missing, then fill the ply-0 state frame via `fromStrFields`.  Note that the parser
never initialises `hash` from the placed pieces — it stays `0` from `Position::new`
— and that the impl never returns `Err`. -/
def fromStrChars (cs : List Char) : POut Position :=
  let params := splitCh ' ' cs
  let ranks := splitCh '/' (params.headD [])
  match parseRanksChars ranks.reverse 0 (fun _ _ => 0) with
  | none => .panicked "Invalid piece character"
  | some (bbs, _) =>
    if bbs 0 5 = 0 ∨ bbs 1 5 = 0 then .panicked "One king is missing"
    else fromStrFields bbs params

namespace Position

/-- from_str embeds `Position::from_str` on Lean strings. -/
def from_str (s : String) : POut Position := fromStrChars s.data

/-- pairOn is the combined `(color_on, piece_on)` scan (both Rust methods scan the
pairs in the same order, so the pair found is shared). -/
def pairOn (P : Position) (sq : Nat) : Option (Nat × Nat) :=
  cpPairs.find? (fun cp => (P.pieces_bb cp.1 cp.2).testBit sq)

end Position

/-- pieceCharOf renders the piece found on a square as `Position::fen` does: the
lowercase letter of `Piece::to_char`, uppercased for White. -/
def pieceCharOf (cp : Nat × Nat) : Char :=
  if cp.1 = 0 then (pieceCharL cp.2).toUpper else pieceCharL cp.2

/-- fenRankAux is the per-rank loop of `Position::fen` acting on the already-scanned
cells of the rank, with the running empty counter `em`. -/
def fenRankAux : List (Option (Nat × Nat)) → Nat → List Char
  | [], em => if em ≠ 0 then natToChars em else []
  | none :: rest, em => fenRankAux rest (em + 1)
  | some cp :: rest, em =>
    (if em ≠ 0 then natToChars em else []) ++ [pieceCharOf cp] ++ fenRankAux rest 0

/-- fenCells lists the scanned board contents of rank `r`, files a to h. -/
def fenCells (P : Position) (r : Nat) : List (Option (Nat × Nat)) :=
  (List.range 8).map (fun f => P.pairOn (r * 8 + f))

/-- fenBoardAux renders the placement field from rank `n-1` down to rank 0, with a
`/` after every rank but the last, as the `for r in (0..8).rev()` loop does. -/
def fenBoardAux (P : Position) : Nat → List Char
  | 0 => []
  | n + 1 =>
    fenRankAux (fenCells P n) 0 ++ (if n ≠ 0 then ['/'] else []) ++ fenBoardAux P n

/-- castlingChars renders the castling field of `Position::fen`. -/
def castlingChars (st : State) : List Char :=
  if st.castling ≠ 0 then
    (if st.can_castle State.WHITE_00 then ['K'] else [])
    ++ (if st.can_castle State.WHITE_000 then ['Q'] else [])
    ++ (if st.can_castle State.BLACK_00 then ['k'] else [])
    ++ (if st.can_castle State.BLACK_000 then ['q'] else [])
  else ['-']

/-- epChars renders the en-passant field of `Position::fen`. -/
def epChars (st : State) : List Char :=
  match st.ep with
  | some s => squareChars s
  | none => ['-']

namespace Position

/-- fenChars embeds `Position::fen` producing the character list of the FEN string:
placement, side, castling, en passant, halfmove, fullmove. -/
def fenChars (P : Position) : List Char :=
  let st := P.actual_state
  fenBoardAux P 8 ++ [' '] ++ (if st.turn = 0 then ['w'] else ['b']) ++ [' ']
    ++ castlingChars st ++ [' '] ++ epChars st ++ [' ']
    ++ natToChars st.hm ++ [' '] ++ natToChars st.fm

/-- fen embeds `Position::fen` on Lean strings. -/
def fen (P : Position) : String := String.mk P.fenChars

end Position

/-- renderCells lists the contents of rank `r` of an abstract cell assignment, files
a to h, exactly as `fenCells` scans the board of a position. -/
def renderCells (cells : Nat → Option (Nat × Nat)) (r : Nat) :
    List (Option (Nat × Nat)) :=
  (List.range 8).map (fun f => cells (r * 8 + f))

/-- renderBoardAux renders the placement field of an abstract cell assignment with
the same run-length loop `Position::fen` uses (`fenRankAux`), rank `n-1` down to 0,
a `/` after every rank but the last. -/
def renderBoardAux (cells : Nat → Option (Nat × Nat)) : Nat → List Char
  | 0 => []
  | n + 1 =>
    fenRankAux (renderCells cells n) 0 ++ (if n ≠ 0 then ['/'] else []) ++
      renderBoardAux cells n

/-- FenRec is an abstract six-field FEN record: a cell assignment for the board plus
the five trailing fields.  `renderFen` prints it in the normalized form. -/
structure FenRec where
  cells : Nat → Option (Nat × Nat)
  turn : Nat
  castling : Nat
  ep : Option Nat
  hm : Nat
  fm : Nat

/-- stOf packs the scalar fields of a FEN record into a `State` frame. -/
def stOf (r : FenRec) : State :=
  { turn := r.turn, castling := r.castling, captured := none, ep := r.ep,
    hm := r.hm, fm := r.fm }

/-- renderFenChars renders a FEN record in the normalized form `Position::fen`
produces: placement with empty runs compacted as digits, side (`w`/`b`), castling
rights in `KQkq` order (`-` when none remain), en passant target (`-` when absent),
halfmove and fullmove counters in decimal. -/
def renderFenChars (r : FenRec) : List Char :=
  renderBoardAux r.cells 8 ++ [' '] ++ (if r.turn = 0 then ['w'] else ['b']) ++ [' ']
    ++ castlingChars (stOf r) ++ [' '] ++ epChars (stOf r) ++ [' ']
    ++ natToChars r.hm ++ [' '] ++ natToChars r.fm

/-- renderFen is `renderFenChars` as a string. -/
def renderFen (r : FenRec) : String := String.mk (renderFenChars r)

/-- FenWf: the record has in-range cells, both kings on the board, a two-valued side
to move, a four-bit castling field, and an in-range en-passant square.  Every FEN
string `Position::from_str` accepts normalizes to such a record. -/
def FenWf (r : FenRec) : Prop :=
  r.turn < 2 ∧ r.castling < 16 ∧
  (∀ sq, sq < 64 → ∀ cp, r.cells sq = some cp → cp.1 < 2 ∧ cp.2 < 6) ∧
  (∃ s, s < 64 ∧ r.cells s = some (0, 5)) ∧
  (∃ s, s < 64 ∧ r.cells s = some (1, 5)) ∧
  (∀ s, r.ep = some s → s < 64)

/-- placeCells is the square-by-square reference semantics of the placement parser:
skip empty cells, set the bit of each piece cell at the running square, fail on an
index reaching 64 (exactly the letter branch of `parseRankChars`). -/
def placeCells : List (Option (Nat × Nat)) → Nat → (Nat → Nat → Nat) →
    Option ((Nat → Nat → Nat) × Nat)
  | [], sq, bbs => some (bbs, sq)
  | none :: rest, sq, bbs => placeCells rest (sq + 1) bbs
  | some cp :: rest, sq, bbs =>
    if sq ≥ 64 then none
    else placeCells rest (sq + 1) (updBB bbs cp.1 cp.2 (bbs cp.1 cp.2 ||| (1 <<< sq)))

/-- startCells is the cell assignment of the chess starting position. -/
def startCells : Nat → Option (Nat × Nat) := fun sq =>
  (([some (0, 3), some (0, 1), some (0, 2), some (0, 4), some (0, 5), some (0, 2),
      some (0, 1), some (0, 3)]
    ++ List.replicate 8 (some (0, 0))
    ++ List.replicate 32 none
    ++ List.replicate 8 (some (1, 0))
    ++ [some (1, 3), some (1, 1), some (1, 2), some (1, 4), some (1, 5), some (1, 2),
      some (1, 1), some (1, 3)]) : List (Option (Nat × Nat))).getD sq none

/-- fenRecStart is the FEN record of the chess starting position. -/
def fenRecStart : FenRec :=
  { cells := startCells, turn := 0, castling := 15, ep := none, hm := 0, fm := 1 }

/-- get_lsb embeds `BitHelpers::get_lsb` (`x & x.wrapping_neg()`). -/
def get_lsb (x : Nat) : Nat := x &&& ((2 ^ 64 - x) % 2 ^ 64)

/-- restFrom clears the bits of `bb` below position `s`: when a pop-lsb loop over the
set bits of `bb` reaches bit `s` (visiting them in ascending order), the remaining
loop variable holds exactly `restFrom bb s`. -/
def restFrom (bb s : Nat) : Nat := (bb >>> s) <<< s

/-- FILE_A mask. -/
def FILE_A : Nat := 0x101010101010101
/-- FILE_H mask. -/
def FILE_H : Nat := 0x8080808080808080
/-- RANK_1 mask. -/
def RANK_1 : Nat := 0xff

/-- shift_dir embeds `BitBoard::shift_dir`, with the `Direction` enum represented by
its discriminant (North 8, South -8, East 1, West -1, NorthEast 9, NorthWest 7,
SouthEast -7, SouthWest -9, North2 16, South2 -16); `Direction::relative` negates the
discriminant for Black, matching `Neg for Direction`. -/
def shift_dir (bb : Nat) (d : Int) : Nat :=
  if d = 8 then (bb <<< 8) % 2 ^ 64
  else if d = -8 then bb >>> 8
  else if d = 16 then (bb <<< 16) % 2 ^ 64
  else if d = -16 then bb >>> 16
  else if d = 1 then ((bb &&& compl64 FILE_H) <<< 1) % 2 ^ 64
  else if d = -1 then (bb &&& compl64 FILE_A) >>> 1
  else if d = 9 then ((bb &&& compl64 FILE_H) <<< 9) % 2 ^ 64
  else if d = 7 then ((bb &&& compl64 FILE_A) <<< 7) % 2 ^ 64
  else if d = -7 then (bb &&& compl64 FILE_H) >>> 7
  else if d = -9 then (bb &&& compl64 FILE_A) >>> 9
  else 0

/-- relative_rank embeds `BitBoard::relative_rank`. -/
def relative_rank (rank color : Nat) : Nat :=
  if color = 0 then RANK_1 <<< ((rank - 1) * 8) else RANK_1 <<< ((8 - rank) * 8)

namespace MoveList

/-- extend embeds `MoveList::extend`: one `add` per set bit of `to`, in ascending
square order (the order of the get_lsb/pop_lsb loop). -/
def extend (l : MoveList) (fromSq toBB flag : Nat) : Option MoveList :=
  (List.range 64).foldlM
    (fun acc s => if toBB.testBit s then acc.add fromSq s flag else some acc) l

/-- add_promotions embeds `MoveList::add_promotions`. -/
def add_promotions (l : MoveList) (fromSq toSq : Nat) (capture : Bool) :
    Option MoveList := do
  if capture then do
    let l1 ← l.add fromSq toSq Move.PC_N
    let l2 ← l1.add fromSq toSq Move.PC_B
    let l3 ← l2.add fromSq toSq Move.PC_R
    l3.add fromSq toSq Move.PC_Q
  else do
    let l1 ← l.add fromSq toSq Move.PR_N
    let l2 ← l1.add fromSq toSq Move.PR_B
    let l3 ← l2.add fromSq toSq Move.PR_R
    l3.add fromSq toSq Move.PR_Q

end MoveList

/-- bitLoopM embeds the `while b != 0 { s = b.bit_scan(); ...; b = b.pop_lsb() }`
loops of `Position::legal`: the body runs once per set bit of `bb` in ascending
order, and the accumulator's second component tracks the loop variable `s` (which
keeps its previous value when the loop runs zero times). -/
def bitLoopM (bb : Nat) (body : MoveList → Nat → Option MoveList)
    (init : MoveList × Nat) : Option (MoveList × Nat) :=
  (List.range 64).foldlM
    (fun acc t =>
      if bb.testBit t then do
        let l' ← body acc.1 t
        some (l', t)
      else some acc) init

namespace Position

/-- legalPieces embeds the knight and slider loops of `Position::legal` (steps after
the double-check early return, before the pawn loops). -/
def legalPieces (P : Position) (a0 : MoveList × Nat) : Option (MoveList × Nat) := do
  let st := P.actual_state
  let turn := st.turn
  let occ := P.occupancy
  let en := P.colors (1 - turn)
  let em := compl64 occ
  let cm := P.checkmask
  let pinned := P.pin_hv ||| P.pin_d12
  let a1 ← bitLoopM (P.pieces_bb turn 1 &&& compl64 pinned)
    (fun l s => do
      let l1 ← l.extend s (knightMask s &&& cm &&& en) Move.CAPTURE
      l1.extend s (knightMask s &&& cm &&& em) Move.QUIET) a0
  let a2 ← bitLoopM (P.hv_sliders turn &&& compl64 P.pin_d12 &&& P.pin_hv)
    (fun l s => do
      let l1 ← l.extend s (hv_moves s occ &&& cm &&& P.pin_hv &&& en) Move.CAPTURE
      l1.extend s (hv_moves s occ &&& cm &&& P.pin_hv &&& em) Move.QUIET) a1
  let a3 ← bitLoopM (P.hv_sliders turn &&& compl64 P.pin_d12 &&& compl64 P.pin_hv)
    (fun l s => do
      let l1 ← l.extend s (hv_moves s occ &&& cm &&& en) Move.CAPTURE
      l1.extend s (hv_moves s occ &&& cm &&& em) Move.QUIET) a2
  let a4 ← bitLoopM (P.d12_sliders turn &&& compl64 P.pin_hv &&& P.pin_d12)
    (fun l s => do
      let l1 ← l.extend s (d12_moves s occ &&& cm &&& P.pin_d12 &&& en) Move.CAPTURE
      l1.extend s (d12_moves s occ &&& cm &&& P.pin_d12 &&& em) Move.QUIET) a3
  bitLoopM (P.d12_sliders turn &&& compl64 P.pin_hv &&& compl64 P.pin_d12)
    (fun l s => do
      let l1 ← l.extend s (d12_moves s occ &&& cm &&& en) Move.CAPTURE
      l1.extend s (d12_moves s occ &&& cm &&& em) Move.QUIET) a4

/-- legalPushes embeds the pawn push, push-promotion and double-push loops of
`Position::legal`, both for unpinned and HV-pinned pawns.  In the pawn loops the
Rust code recovers the from-square as `shift_dir(b2, inverse).bit_scan()` computed
on the remaining loop mask, which is `restFrom b2 s` at the iteration handling
bit `s`. -/
def legalPushes (P : Position) (a5 : MoveList × Nat) : Option (MoveList × Nat) := do
  let st := P.actual_state
  let turn := st.turn
  let em := compl64 P.occupancy
  let cm := P.checkmask
  let pinned := P.pin_hv ||| P.pin_d12
  let north : Int := if turn = 0 then 8 else -8
  let south : Int := if turn = 0 then -8 else 8
  let south2 : Int := if turn = 0 then -16 else 16
  let b1a := shift_dir (P.pieces_bb turn 0 &&& compl64 pinned) north &&& em
  let b2a := b1a &&& compl64 (relative_rank 8 turn) &&& cm
  let a6 ← bitLoopM b2a
    (fun l s => l.add (bit_scan (shift_dir (restFrom b2a s) south)) s Move.QUIET) a5
  let b2b := b1a &&& relative_rank 8 turn &&& cm
  let a7 ← bitLoopM b2b
    (fun l s =>
      l.add_promotions (bit_scan (shift_dir (restFrom b2b s) south)) s false) a6
  let b2c := shift_dir b1a north &&& em &&& relative_rank 4 turn &&& cm
  let a8 ← bitLoopM b2c
    (fun l s =>
      l.add (bit_scan (shift_dir (restFrom b2c s) south2)) s Move.DOUBLE_PUSH) a7
  let b1p := shift_dir (P.pieces_bb turn 0 &&& compl64 P.pin_d12 &&& P.pin_hv) north
    &&& em &&& P.pin_hv &&& cm
  let a9 ← bitLoopM b1p
    (fun l s => l.add (bit_scan (shift_dir (restFrom b1p s) south)) s Move.QUIET) a8
  let b2d := shift_dir b1p north &&& em &&& P.pin_hv &&& relative_rank 4 turn &&& cm
  bitLoopM b2d
    (fun l s =>
      l.add (bit_scan (shift_dir (restFrom b2d s) south2)) s Move.DOUBLE_PUSH) a9

/-- legalPawnCaps embeds the unpinned pawn capture and capture-promotion loops of
`Position::legal` (left = relative north-east, right = relative north-west). -/
def legalPawnCaps (P : Position) (a10 : MoveList × Nat) : Option (MoveList × Nat) := do
  let st := P.actual_state
  let turn := st.turn
  let en := P.colors (1 - turn)
  let cm := P.checkmask
  let pinned := P.pin_hv ||| P.pin_d12
  let ne : Int := if turn = 0 then 9 else -9
  let nw : Int := if turn = 0 then 7 else -7
  let sw : Int := if turn = 0 then -9 else 9
  let se : Int := if turn = 0 then -7 else 7
  let b1l := shift_dir (P.pieces_bb turn 0 &&& compl64 pinned) ne &&& en &&& cm
  let b2e := b1l &&& compl64 (relative_rank 8 turn)
  let a11 ← bitLoopM b2e
    (fun l s => l.add (bit_scan (shift_dir (restFrom b2e s) sw)) s Move.CAPTURE) a10
  let b2f := b1l &&& relative_rank 8 turn
  let a12 ← bitLoopM b2f
    (fun l s => l.add_promotions (bit_scan (shift_dir (restFrom b2f s) sw)) s true) a11
  let b1r := shift_dir (P.pieces_bb turn 0 &&& compl64 pinned) nw &&& en &&& cm
  let b2g := b1r &&& compl64 (relative_rank 8 turn)
  let a13 ← bitLoopM b2g
    (fun l s => l.add (bit_scan (shift_dir (restFrom b2g s) se)) s Move.CAPTURE) a12
  let b2h := b1r &&& relative_rank 8 turn
  bitLoopM b2h
    (fun l s => l.add_promotions (bit_scan (shift_dir (restFrom b2h s) se)) s true) a13

/-- legalPawnCapsPinned embeds the D12-pinned pawn capture and capture-promotion
loops of `Position::legal` (these intersect with `pin_d12` instead of the
checkmask). -/
def legalPawnCapsPinned (P : Position) (a14 : MoveList × Nat) :
    Option (MoveList × Nat) := do
  let st := P.actual_state
  let turn := st.turn
  let en := P.colors (1 - turn)
  let ne : Int := if turn = 0 then 9 else -9
  let nw : Int := if turn = 0 then 7 else -7
  let sw : Int := if turn = 0 then -9 else 9
  let se : Int := if turn = 0 then -7 else 7
  let b1lp := shift_dir (P.pieces_bb turn 0 &&& compl64 P.pin_hv &&& P.pin_d12) ne
    &&& en &&& P.pin_d12
  let b2i := b1lp &&& compl64 (relative_rank 8 turn)
  let a15 ← bitLoopM b2i
    (fun l s => l.add (bit_scan (shift_dir (restFrom b2i s) sw)) s Move.CAPTURE) a14
  let b2j := b1lp &&& relative_rank 8 turn
  let a16 ← bitLoopM b2j
    (fun l s => l.add_promotions (bit_scan (shift_dir (restFrom b2j s) sw)) s true) a15
  let b1rp := shift_dir (P.pieces_bb turn 0 &&& compl64 P.pin_hv &&& P.pin_d12) nw
    &&& en &&& P.pin_d12
  let b2k := b1rp &&& compl64 (relative_rank 8 turn)
  let a17 ← bitLoopM b2k
    (fun l s => l.add (bit_scan (shift_dir (restFrom b2k s) se)) s Move.CAPTURE) a16
  let b2l := b1rp &&& relative_rank 8 turn
  bitLoopM b2l
    (fun l s => l.add_promotions (bit_scan (shift_dir (restFrom b2l s) se)) s true) a17

/-- legalQuiet chains the four generation phases between the double-check early
return and the en-passant block of `Position::legal`. -/
def legalQuiet (P : Position) (l0 : MoveList) : Option (MoveList × Nat) := do
  let a5 ← legalPieces P (l0, 0)
  let a10 ← legalPushes P a5
  let a14 ← legalPawnCaps P a10
  legalPawnCapsPinned P a14

/-- epInner embeds the body of one iteration of the en-passant `while b1 != 0` loop
(minus the loop control): the D12-pin case, the no-rank-slider case, and the
discovered-check scan over the opponent's orthogonal sliders on the king's rank.
`s` is the stale loop variable left over from the preceding generation loops. -/
def epInner (P : Position) (st : State) (occ o_king ep s : Nat) (b1 : Nat)
    (l : MoveList) : Option MoveList := do
  let cm := P.checkmask
  let b2 := 1 <<< ep
  let south : Int := if st.turn = 0 then -8 else 8
  if P.pin_d12 &&& get_lsb b1 ≠ 0 then
    l.extend s (b2 &&& P.pin_d12 &&& cm) Move.EN_PASSANT
  else
    let b3 := P.hv_sliders (1 - st.turn) &&& (RANK_1 <<< (o_king / 8 * 8))
    if b3 = 0 then
      if cm = shift_dir (1 <<< ep) south then l.extend s b2 Move.EN_PASSANT
      else l.extend s (b2 &&& cm) Move.EN_PASSANT
    else
      (List.range 64).foldlM
        (fun lacc t =>
          if b3.testBit t then
            if between t o_king &&& occ ≠ (1 <<< s) ||| shift_dir (1 <<< ep) south then
              lacc.extend s (b2 &&& cm) Move.EN_PASSANT
            else some lacc
          else some lacc) l

/-- epLoop embeds the en-passant `while b1 != 0` loop of `Position::legal`.  The Rust
body never modifies `b1` (the commented-out predecessor of this block popped it, the
live code does not), so with a nonzero `b1` the loop can only run the body forever;
the explicit fuel makes that observable (`none` on exhaustion, as also for a
capacity panic inside the body). -/
def epLoop (P : Position) (st : State) (occ o_king ep s : Nat) (b1 : Nat) :
    Nat → MoveList → Option MoveList
  | 0, _ => none
  | fuel + 1, l =>
    if b1 = 0 then some l
    else do
      let l' ← epInner P st occ o_king ep s b1 l
      epLoop P st occ o_king ep s b1 fuel l'

/-- epPhase embeds the `if let Some(ep) = state.ep` block of `Position::legal`. -/
def epPhase (P : Position) (st : State) (occ o_king : Nat) (fuel : Nat)
    (l : MoveList) (s : Nat) : Option MoveList :=
  match st.ep with
  | none => some l
  | some ep =>
    let b1 := pawnAtt (1 - st.turn) ep &&& P.pieces_bb st.turn 0 &&& compl64 P.pin_hv
    epLoop P st occ o_king ep s b1 fuel l

/-- castlePhase embeds the castling block at the end of `Position::legal`. -/
def castlePhase (P : Position) (st : State) (o_king occ : Nat) (l : MoveList) :
    Option MoveList := do
  if P.checkmask = UMAX then do
    let l1 ←
      (if st.can_castle (State.SHORT st.turn) then
        (let bb := oo_blockers st.turn
         if bb &&& compl64 P.danger &&& compl64 occ = bb then
           l.add o_king (State.SHORT_TARGET st.turn) Move.CASTLE_00
         else some l)
      else some l)
    if st.can_castle (State.LONG st.turn) then
      (let bb := ooo_blockers st.turn
       if bb &&& (compl64 P.danger ||| ooo_danger st.turn) &&& compl64 occ = bb then
         l1.add o_king (State.LONG_KING_TARGET st.turn) Move.CASTLE_000
       else some l1)
    else some l1
  else some l

/-- legalKing embeds the king-move generation at the top of `Position::legal`: the
king's safe captures first, then its safe quiet moves. -/
def legalKing (P : Position) : Option MoveList := do
  let st := P.actual_state
  let o_king := P.king st.turn
  let en := P.colors (1 - st.turn)
  let em := compl64 P.occupancy
  let b1 := kingMask o_king &&& compl64 P.danger
  let l1 ← MoveList.extend ⟨[]⟩ o_king (b1 &&& en) Move.CAPTURE
  l1.extend o_king (b1 &&& em) Move.QUIET

/-- legalHead embeds `Position::legal` up to the en-passant block: king moves first,
then the double-check early return (`Sum.inl`), else the quiet/capture generation of
`legalQuiet` (`Sum.inr`, paired with the final loop variable `s`). -/
def legalHead (P : Position) : Option (Sum MoveList (MoveList × Nat)) := do
  let l2 ← legalKing P
  if P.checkmask = 0 then some (Sum.inl l2)
  else (legalQuiet P l2).map Sum.inr

/-- legal embeds `Position::legal`.  `fuel` bounds the iterations of the en-passant
loop (which the Rust code never exits once entered); every other loop is bounded by
the 64 squares.  `none` models a panic or a non-terminating run. -/
def legal (P : Position) (fuel : Nat) : Option MoveList := do
  let st := P.actual_state
  let o_king := P.king st.turn
  let occ := P.occupancy
  let hd ← legalHead P
  match hd with
  | .inl l => some l
  | .inr ls => do
    let l2 ← epPhase P st occ o_king fuel ls.1 ls.2
    castlePhase P st o_king occ l2

end Position

/-- zobristRecompute is the from-scratch XOR of `ZOBRIST_PIECES[c][p][sq]` over every
occupied (color, piece, square) triple of the board: the value the spec requires the
`hash` field to equal. -/
def zobristRecompute (P : Position) : Nat :=
  cpPairs.foldl
    (fun acc cp =>
      (List.range 64).foldl
        (fun a sq =>
          if (P.pieces_bb cp.1 cp.2).testBit sq then a ^^^ zobrist cp.1 cp.2 sq else a)
        acc) 0

/-- fenStart is the standard initial position FEN. -/
def fenStart : String := "rnbqkbnr/pppppppp/8/8/8/8/PPPPPPPP/RNBQKBNR w KQkq - 0 1"

/-- posStart is the parsed initial position. -/
def posStart : Position :=
  match Position.from_str fenStart with
  | .ok P => P
  | _ => Position.new

/-- C3: claimed — after Position construction from a valid FEN, `hash` equals the
XOR of `ZOBRIST_PIECES[c][p][sq]` over the occupied triples.  In fact `from_str`
fills the piece bitboards without ever touching `hash`, which stays `0` from
`Position::new`, while the Zobrist recomputation over the 32 occupied squares of the
initial position is nonzero: the invariant is already broken at construction. -/
theorem hash_not_zobrist_after_parse :
    Position.from_str fenStart = .ok posStart ∧ posStart.hash = 0 ∧
      zobristRecompute posStart ≠ 0 :=
  ⟨rfl, rfl, by decide⟩

/-- fenNoBlackKing is a placement with a white king but no black king. -/
def fenNoBlackKing : String := "8/8/8/8/8/8/8/K7 w - - 0 1"

/-- C5: claimed — a FEN whose placement lacks a king surfaces as an `Err` returned to
the caller of `Position::from_str`.  In fact the parser executes
`panic!("One king is missing")`, and no code path of the `FromStr` impl ever
constructs an `Err`. -/
theorem missing_king_panics :
    Position.from_str fenNoBlackKing = .panicked "One king is missing" ∧
      ∀ e, Position.from_str fenNoBlackKing ≠ .err e := by
  refine ⟨rfl, fun e h => ?_⟩
  have h2 : (POut.panicked "One king is missing" : POut Position) = .err e :=
    (rfl : Position.from_str fenNoBlackKing = .panicked "One king is missing").symm.trans h
  exact POut.noConfusion h2

/-- fenC1 is a position in which White can capture the a7 pawn with the a1 rook. -/
def fenC1 : String := "k7/p7/8/8/8/8/8/R3K3 w - - 0 1"

/-- posC1 is the parsed `fenC1`. -/
def posC1 : Position :=
  match Position.from_str fenC1 with
  | .ok P => P
  | _ => Position.new

/-- mvC1 is the capture a1xa7 (from 0, to 48, flag CAPTURE). -/
def mvC1 : Move := Move.new 0 48 1

/-- listC1 is the legal move list of `posC1`. -/
def listC1 : MoveList := (posC1.legal 64).getD ⟨[]⟩

/-- posC1m is `posC1` after make_move(a1xa7). -/
def posC1m : Position := (posC1.make_move mvC1).getD Position.new

/-- posC1mu is `posC1m` after undo_move(a1xa7). -/
def posC1mu : Position := (posC1m.undo_move mvC1).getD Position.new

/-- C1: claimed — make_move then undo_move of a legal move restores the position
bit-for-bit, including `hash`.  In fact for a capture the hash is not restored: the
asymmetry between `unset_square` (which XORs all twelve keys of the square) and the
single-key `set_square` leaves the roundtrip hash off by the captured piece's key
`ZOBRIST_PIECES[Black][Pawn][a7]`.  The bitboards are restored, the hash is not. -/
theorem make_undo_capture_breaks_hash :
    Position.from_str fenC1 = .ok posC1 ∧
      posC1.legal 64 = some listC1 ∧ mvC1 ∈ listC1.moves ∧
      posC1.make_move mvC1 = some posC1m ∧
      posC1m.undo_move mvC1 = some posC1mu ∧
      posC1mu.hash ≠ posC1.hash ∧
      posC1mu.hash = posC1.hash ^^^ zobrist 1 0 48 ∧
      (∀ c p, c < 2 → p < 6 → posC1mu.pieces_bb c p = posC1.pieces_bb c p) := by
  refine ⟨rfl, rfl, by decide, rfl, rfl, by decide, by decide, ?_⟩
  intro c p hc hp
  interval_cases c <;> interval_cases p <;> decide

/-- fenC6 is a position where White retains the queen-side castling right, the long
castling area b1,c1,d1 is empty, b1 is unattacked, but c1 — a square of
`ooo_danger`, which the spec requires to be safe — is attacked by the rook on c8. -/
def fenC6 : String := "2r4k/8/8/8/8/8/8/R3K3 w Q - 0 1"

/-- posC6 is the parsed `fenC6`. -/
def posC6 : Position :=
  match Position.from_str fenC6 with
  | .ok P => P
  | _ => Position.new

/-- listC6 is the legal move list of `posC6`. -/
def listC6 : MoveList := (posC6.legal 64).getD ⟨[]⟩

/-- C6: claimed — with the queen-side right and not in check, CASTLE_000 is emitted
iff all of `ooo_blockers` is empty and all of `ooo_danger` is unattacked.  In fact
the condition `b1 & (!danger | ooo_danger) & !occ == b1` in `legal` exempts exactly
the `ooo_danger` squares from the danger check (the spec's formula uses
`~ooo_danger`), so here CASTLE_000 (e1c1) is emitted although the `ooo_danger`
square c1 is attacked. -/
theorem castle_000_emitted_through_attacked_danger_square :
    Position.from_str fenC6 = .ok posC6 ∧
      posC6.checkmask = UMAX ∧
      (ooo_danger 0).testBit 2 = true ∧
      posC6.danger.testBit 2 = true ∧
      (ooo_blockers 0 &&& compl64 posC6.occupancy = ooo_blockers 0) ∧
      posC6.legal 64 = some listC6 ∧ Move.new 4 2 5 ∈ listC6.moves :=
  ⟨rfl, by decide, by decide, by decide, by decide, rfl, by decide⟩

/-- epLoop_stuck: once entered with a nonzero pawn-attacker mask `b1`, the embedded
en-passant loop never returns normally, for any amount of fuel — the loop body never
modifies `b1`. -/
theorem epLoop_stuck (P : Position) (st : State) (occ o_king ep s b1 : Nat)
    (hb1 : b1 ≠ 0) :
    ∀ fuel l, Position.epLoop P st occ o_king ep s b1 fuel l = none := by
  intro fuel
  induction fuel with
  | zero => intro l; rfl
  | succ n ih =>
    intro l
    unfold Position.epLoop
    rw [if_neg hb1]
    cases hbody : Position.epInner P st occ o_king ep s b1 l with
    | none => simp [hbody]
    | some l' => simp [hbody, ih l']

/-- fenC2 is a position with an en-passant square (d6) attacked by the unpinned white
pawn on e5: the C2 spec sentence singles out exactly this situation. -/
def fenC2 : String := "rnbqkbnr/ppp1pppp/8/3pP3/8/8/PPPP1PPP/RNBQKBNR w KQkq d6 0 3"

/-- posC2 is the parsed `fenC2`. -/
def posC2 : Position :=
  match Position.from_str fenC2 with
  | .ok P => P
  | _ => Position.new

/-- headC2 is the concrete value carried by `legalHead posC2`. -/
def headC2 : MoveList × Nat :=
  match Position.legalHead posC2 with
  | some (.inr ls) => ls
  | _ => (⟨[]⟩, 0)

/-- C2: claimed — `legal()` terminates and returns without a runtime error in every
constructed position, in particular when an en-passant square is set and attacked by
an unpinned pawn.  In fact the `while b1 != 0` loop of the en-passant block never
pops `b1` (its commented-out predecessor did), so in `posC2` the call can only loop
forever or die on the move-list capacity: for every fuel bound the embedded `legal`
fails to return. -/
theorem legal_diverges_on_en_passant :
    Position.from_str fenC2 = .ok posC2 ∧ ∀ fuel, posC2.legal fuel = none := by
  refine ⟨rfl, fun fuel => ?_⟩
  have hhead : Position.legalHead posC2 = some (Sum.inr headC2) := rfl
  have hep : (posC2.actual_state).ep = some 43 := rfl
  have hstuck : ∀ l s, Position.epPhase posC2 posC2.actual_state posC2.occupancy
      (posC2.king (posC2.actual_state).turn) fuel l s = none := by
    intro l s
    unfold Position.epPhase
    rw [hep]
    exact epLoop_stuck posC2 _ _ _ _ s _ (by decide) fuel l
  unfold Position.legal
  simp only [hhead, Option.bind_eq_bind, Option.some_bind]
  simp only [hstuck, Option.none_bind]

/-- bitScanFrom_lt: a set bit inside the scan window forces the scan to land inside
the window. -/
theorem bitScanFrom_lt (n : Nat) :
    ∀ fuel i, (∃ j, i ≤ j ∧ j < i + fuel ∧ n.testBit j = true) →
      bitScanFrom n i fuel < i + fuel := by
  intro fuel
  induction fuel with
  | zero =>
    intro i h
    obtain ⟨j, h1, h2, _⟩ := h
    omega
  | succ k ih =>
    intro i h
    obtain ⟨j, h1, h2, h3⟩ := h
    unfold bitScanFrom
    by_cases hb : n.testBit i
    · rw [if_pos hb]; omega
    · rw [if_neg hb]
      have hji : i ≠ j := fun he => hb (he ▸ h3)
      have := ih (i + 1) ⟨j, by omega, by omega, h3⟩
      omega

/-- bit_scan_lt: a nonzero bitboard below `2^64` scans to a square index below 64. -/
theorem bit_scan_lt (n : Nat) (h0 : n ≠ 0) (hlt : n < 2 ^ 64) : bit_scan n < 64 := by
  obtain ⟨j, hj⟩ := Nat.ne_zero_implies_bit_true h0
  have hj64 : j < 64 := by
    by_contra hge
    have hge2 := Nat.testBit_implies_ge hj
    have : (2 : Nat) ^ 64 ≤ 2 ^ j := Nat.pow_le_pow_right (by norm_num) (by omega)
    omega
  have := bitScanFrom_lt n 64 0 ⟨j, by omega, by omega, hj⟩
  simpa [bit_scan] using this

/-- extendFold_spec: the fold underlying `MoveList.extend` succeeds whenever there is
room for one move per inspected square, and every move it appends has the given
from-square. -/
theorem extendFold_spec (fromSq toBB flag : Nat) (hf : fromSq < 64) (hfl : flag < 16) :
    ∀ n, n ≤ 64 → ∀ l : MoveList, l.moves.length + n ≤ 218 →
      ∃ l', (List.range n).foldlM
          (fun acc s => if toBB.testBit s then acc.add fromSq s flag else some acc) l
            = some l' ∧
        l'.moves.length ≤ l.moves.length + n ∧
        ∀ mv ∈ l'.moves, mv ∈ l.moves ∨ Move.fromSq mv = fromSq := by
  intro n
  induction n with
  | zero =>
    intro _ l _
    exact ⟨l, rfl, by omega, fun mv hm => Or.inl hm⟩
  | succ k ih =>
    intro hn64 l hl
    obtain ⟨l1, h1, hlen1, hmem1⟩ := ih (by omega) l (by omega)
    rw [List.range_succ, List.foldlM_append]
    by_cases hb : toBB.testBit k
    · refine ⟨⟨l1.moves ++ [Move.new fromSq k flag]⟩, ?_, ?_, ?_⟩
      · rw [h1]
        simp only [Option.bind_eq_bind, Option.some_bind, List.foldlM, hb, if_true,
          MoveList.add]
        rw [if_pos (by omega)]
        rfl
      · simp only [List.length_append, List.length_singleton]
        omega
      · intro mv hm
        rcases List.mem_append.mp hm with h | h
        · exact hmem1 mv h
        · right
          have hmv : mv = Move.new fromSq k flag := by simpa using h
          rw [hmv]
          exact (move_new_roundtrip fromSq k flag hf (by omega) hfl).1
    · refine ⟨l1, ?_, by omega, hmem1⟩
      rw [h1]
      simp [List.foldlM, hb]

/-- extend_spec: `MoveList.extend` succeeds given 64 slots of room, and appends only
moves with the given from-square. -/
theorem extend_spec (l : MoveList) (fromSq toBB flag : Nat) (hf : fromSq < 64)
    (hfl : flag < 16) (hroom : l.moves.length + 64 ≤ 218) :
    ∃ l', l.extend fromSq toBB flag = some l' ∧
      l'.moves.length ≤ l.moves.length + 64 ∧
      ∀ mv ∈ l'.moves, mv ∈ l.moves ∨ Move.fromSq mv = fromSq :=
  extendFold_spec fromSq toBB flag hf hfl 64 (by omega) l hroom

/-- legalKing_spec: the king-move phase of `legal` cannot overflow the list and emits
only moves whose origin is the king square. -/
theorem legalKing_spec (P : Position) (hkg : P.king (P.actual_state).turn < 64) :
    ∃ l, Position.legalKing P = some l ∧ l.moves.length ≤ 128 ∧
      ∀ mv ∈ l.moves, Move.fromSq mv = P.king (P.actual_state).turn := by
  obtain ⟨l1, h1, hlen1, hmem1⟩ := extend_spec ⟨[]⟩ (P.king (P.actual_state).turn)
    (kingMask (P.king (P.actual_state).turn) &&& compl64 P.danger
      &&& P.colors (1 - (P.actual_state).turn)) Move.CAPTURE hkg (by decide)
    (by simp)
  obtain ⟨l2, h2, hlen2, hmem2⟩ := extend_spec l1 (P.king (P.actual_state).turn)
    (kingMask (P.king (P.actual_state).turn) &&& compl64 P.danger
      &&& compl64 P.occupancy) Move.QUIET hkg (by decide)
    (by simp at hlen1; omega)
  refine ⟨l2, ?_, by simp at hlen1; omega, ?_⟩
  · unfold Position.legalKing
    simp only [h1, Option.bind_eq_bind, Option.some_bind, h2]
  · intro mv hm
    rcases hmem2 mv hm with h | h
    · rcases hmem1 mv h with h' | h'
      · simp at h'
      · exact h'
    · exact h

/-- legal_king_only: with a zero cached checkmask, `legal` takes the double-check
early return and yields king-origin moves only. -/
theorem legal_king_only (P : Position) (hkg : P.king (P.actual_state).turn < 64)
    (hcm : P.checkmask = 0) (fuel : Nat) :
    ∃ l, P.legal fuel = some l ∧
      ∀ mv ∈ l.moves, Move.fromSq mv = P.king (P.actual_state).turn := by
  obtain ⟨l2, hl2, _, hmem⟩ := legalKing_spec P hkg
  have hhd : Position.legalHead P = some (Sum.inl l2) := by
    unfold Position.legalHead
    simp [hl2, hcm]
  refine ⟨l2, ?_, hmem⟩
  unfold Position.legal
  simp [hhd]

/-- countP_or_le: counting a disjunction of predicates is subadditive. -/
theorem countP_or_le (p q : Nat → Bool) :
    ∀ L : List Nat, L.countP (fun i => p i || q i) ≤ L.countP p + L.countP q := by
  intro L
  induction L with
  | nil => simp [List.countP_nil]
  | cons x xs ih =>
    simp only [List.countP_cons]
    cases hp : p x <;> cases hq : q x <;> simp [hp, hq] <;> omega

/-- bit_count_or_le: popcount of a union is at most the sum of popcounts. -/
theorem bit_count_or_le (a b : Nat) : bit_count (a ||| b) ≤ bit_count a + bit_count b := by
  unfold bit_count
  have hc : (List.range 64).countP (fun i => (a ||| b).testBit i)
      = (List.range 64).countP (fun i => a.testBit i || b.testBit i) :=
    List.countP_congr (fun x _ => by rw [Nat.testBit_lor])
  rw [hc]
  exact countP_or_le (fun i => a.testBit i) (fun i => b.testBit i) (List.range 64)

/-- foldl_cnt_ge: a fold whose step never decreases the count component and
increments it on every square satisfying `p` ends with at least `countP p` more. -/
theorem foldl_cnt_ge (f : (Nat × Nat × Nat) → Nat → Nat × Nat × Nat) (p : Nat → Bool)
    (hmono : ∀ acc s, acc.2.1 ≤ (f acc s).2.1)
    (hstep : ∀ acc s, p s = true → acc.2.1 + 1 ≤ (f acc s).2.1) :
    ∀ (L : List Nat) (acc : Nat × Nat × Nat),
      acc.2.1 + L.countP p ≤ (L.foldl f acc).2.1 := by
  intro L
  induction L with
  | nil => intro acc; simp [List.countP_nil]
  | cons x xs ih =>
    intro acc
    rw [List.foldl_cons, List.countP_cons]
    have h2 := ih (f acc x)
    by_cases hp : p x = true
    · rw [if_pos hp]
      have := hstep acc x hp
      omega
    · rw [if_neg hp]
      have := hmono acc x
      omega

/-- cpSliderStep_mono: the slider-loop step never decreases the check count. -/
theorem cpSliderStep_mono (sliders ours enemy : Nat) (aligned : Nat → Bool)
    (mask kg : Nat) (acc : Nat × Nat × Nat) (s : Nat) :
    acc.2.1 ≤ (cpSliderStep sliders ours enemy aligned mask kg acc s).2.1 := by
  unfold cpSliderStep
  by_cases h1 : sliders.testBit s
  · rw [if_pos h1]
    by_cases h2 : ¬ aligned s
    · rw [if_pos h2]
    · rw [if_neg h2]
      by_cases h3 : between kg s &&& mask = 0
      · rw [if_pos h3]
        exact Nat.le_succ _
      · rw [if_neg h3]
        by_cases h4 : between kg s &&& mask &&& enemy ≠ 0
        · rw [if_pos h4]
        · rw [if_neg h4]
          by_cases h5 : between kg s &&& mask &&& ours = 0
          · rw [if_pos h5]
            exact Nat.le_succ _
          · rw [if_neg h5]
            by_cases h6 : bit_count (between kg s &&& mask &&& ours) = 1
            · rw [if_pos h6]
            · rw [if_neg h6]
  · rw [if_neg h1]

/-- land_mask_land_zero: if `a` avoids the squares of `occF` and `b` lies inside
`occF`, then `a` (even further masked) is disjoint from `b`. -/
theorem land_mask_land_zero (a m b occF : Nat) (hz : a &&& occF = 0)
    (hsub : ∀ i, b.testBit i = true → occF.testBit i = true) :
    (a &&& m) &&& b = 0 := by
  apply Nat.eq_of_testBit_eq
  intro i
  rw [Nat.testBit_and, Nat.testBit_and, Nat.zero_testBit]
  by_cases ha : a.testBit i
  · by_cases hb : b.testBit i
    · exfalso
      have hocc := hsub i hb
      have htrue : (a &&& occF).testBit i = true := by
        rw [Nat.testBit_and, ha, hocc]; rfl
      rw [hz, Nat.zero_testBit] at htrue
      exact Bool.noConfusion htrue
    · simp [hb]
  · simp [ha]

/-- cpSliderStep_counts: a slider that actually attacks the king (aligned, clear
segment) makes the loop step increment the check count. -/
theorem cpSliderStep_counts (sliders ours enemy : Nat) (aligned : Nat → Bool)
    (mask kg s occF : Nat)
    (hou : ∀ i, ours.testBit i = true → occF.testBit i = true)
    (hen : ∀ i, enemy.testBit i = true → occF.testBit i = true)
    (hs : sliders.testBit s = true) (hal : aligned s = true)
    (hbet : between kg s &&& occF = 0) (acc : Nat × Nat × Nat) :
    acc.2.1 + 1 ≤ (cpSliderStep sliders ours enemy aligned mask kg acc s).2.1 := by
  unfold cpSliderStep
  rw [if_pos hs]
  have hb1e : (between kg s &&& mask) &&& enemy = 0 :=
    land_mask_land_zero _ _ _ _ hbet hen
  have hb1o : (between kg s &&& mask) &&& ours = 0 :=
    land_mask_land_zero _ _ _ _ hbet hou
  rw [if_neg (by simp [hal])]
  by_cases hb0 : between kg s &&& mask = 0
  · rw [if_pos hb0]
  · rw [if_neg hb0]
    rw [if_neg (show ¬ between kg s &&& mask &&& enemy ≠ 0 from fun h => h hb1e)]
    rw [if_pos hb1o]

/-- colors_sub_occ: each color's pieces lie inside the occupancy. -/
theorem colors_sub_occ (P : Position) (c : Nat) (hc : c < 2) :
    ∀ i, (P.colors c).testBit i = true → P.occupancy.testBit i = true := by
  intro i h
  unfold Position.occupancy
  rw [Nat.testBit_lor]
  interval_cases c
  · rw [h]; rfl
  · rw [h]; simp

/-- Wf is the well-formedness of a position used by the double-check theorem: the
side to move is a valid color, all twelve bitboards are 64-bit values, distinct
(color, piece) bitboards are disjoint, and both kings are on the board. -/
def Wf (P : Position) : Prop :=
  (P.actual_state).turn < 2 ∧
  (∀ cp ∈ cpPairs, P.pieces_bb cp.1 cp.2 < 2 ^ 64) ∧
  (∀ cp ∈ cpPairs, ∀ cp' ∈ cpPairs, cp ≠ cp' →
    P.pieces_bb cp.1 cp.2 &&& P.pieces_bb cp'.1 cp'.2 = 0) ∧
  P.pieces_bb 0 5 ≠ 0 ∧ P.pieces_bb 1 5 ≠ 0

/-- C4: in a well-formed position whose cached checkmask is the one computed by
`check_and_pin` (as after construction and after every make/undo), if the side to
move is checked by two or more enemy pieces — counted by the code's own
`attackers_from` at the king square — then `check_and_pin` returns `checkmask = 0`,
and `legal()` then returns king moves only: every emitted move originates from the
king's square. -/
theorem double_check_zero_mask_king_moves_only (P : Position) (hwf : Wf P)
    (hcache : P.checkmask = (P.check_and_pin).1)
    (hctwo : 2 ≤ bit_count (P.attackers_from (P.king (P.actual_state).turn)
      (1 - (P.actual_state).turn) P.occupancy)) :
    (P.check_and_pin).1 = 0 ∧
      ∀ fuel, ∃ l, P.legal fuel = some l ∧
        ∀ mv ∈ l.moves, Move.fromSq mv = P.king (P.actual_state).turn := by
  obtain ⟨hturn, hbound, hdisj, hwk, hbk⟩ := hwf
  have hturn01 : (P.actual_state).turn = 0 ∨ (P.actual_state).turn = 1 := by omega
  have hou := colors_sub_occ P (P.actual_state).turn (by omega)
  have hen : ∀ i, (P.colors (1 - (P.actual_state).turn)).testBit i = true →
      P.occupancy.testBit i = true :=
    colors_sub_occ P (1 - (P.actual_state).turn) (by omega)
  have hHV : bit_count (Position.cpCm0 P)
      + bit_count (P.hv_sliders (1 - (P.actual_state).turn)
        &&& hv_moves (P.king (P.actual_state).turn) P.occupancy)
      ≤ (Position.cpHvFold P).2.1 := by
    refine foldl_cnt_ge
      (cpSliderStep (P.hv_sliders (1 - (P.actual_state).turn))
        (P.colors (P.actual_state).turn) (P.colors (1 - (P.actual_state).turn))
        (fun s => alignedHV (P.king (P.actual_state).turn) s)
        (hvMask (P.king (P.actual_state).turn)) (P.king (P.actual_state).turn))
      (fun s => (P.hv_sliders (1 - (P.actual_state).turn)
        &&& hv_moves (P.king (P.actual_state).turn) P.occupancy).testBit s)
      (cpSliderStep_mono _ _ _ _ _ _)
      ?_ (List.range 64) (Position.cpCm0 P, bit_count (Position.cpCm0 P), 0)
    intro acc s hp
    simp only [] at hp
    rw [Nat.testBit_and] at hp
    obtain ⟨hs, hm⟩ := Bool.and_eq_true_iff.mp hp
    unfold hv_moves at hm
    rw [testBit_bbOfPred] at hm
    obtain ⟨hs64, hm2⟩ := Bool.and_eq_true_iff.mp hm
    obtain ⟨hal, hbet⟩ := Bool.and_eq_true_iff.mp hm2
    exact cpSliderStep_counts _ _ _ _ _ _ _ _ hou hen hs hal
      (of_decide_eq_true hbet) acc
  have hD12 : (Position.cpHvFold P).2.1
      + bit_count (P.d12_sliders (1 - (P.actual_state).turn)
        &&& d12_moves (P.king (P.actual_state).turn) P.occupancy)
      ≤ (Position.cpD12Fold P).2.1 := by
    refine foldl_cnt_ge
      (cpSliderStep (P.d12_sliders (1 - (P.actual_state).turn))
        (P.colors (P.actual_state).turn) (P.colors (1 - (P.actual_state).turn))
        (fun s => alignedD12 (P.king (P.actual_state).turn) s)
        (d12Mask (P.king (P.actual_state).turn)) (P.king (P.actual_state).turn))
      (fun s => (P.d12_sliders (1 - (P.actual_state).turn)
        &&& d12_moves (P.king (P.actual_state).turn) P.occupancy).testBit s)
      (cpSliderStep_mono _ _ _ _ _ _)
      ?_ (List.range 64) ((Position.cpHvFold P).1, (Position.cpHvFold P).2.1, 0)
    intro acc s hp
    simp only [] at hp
    rw [Nat.testBit_and] at hp
    obtain ⟨hs, hm⟩ := Bool.and_eq_true_iff.mp hp
    unfold d12_moves at hm
    rw [testBit_bbOfPred] at hm
    obtain ⟨hs64, hm2⟩ := Bool.and_eq_true_iff.mp hm
    obtain ⟨hal, hbet⟩ := Bool.and_eq_true_iff.mp hm2
    exact cpSliderStep_counts _ _ _ _ _ _ _ _ hou hen hs hal
      (of_decide_eq_true hbet) acc
  have hatt : bit_count (P.attackers_from (P.king (P.actual_state).turn)
      (1 - (P.actual_state).turn) P.occupancy)
      ≤ bit_count (Position.cpCm0 P)
        + bit_count (P.d12_sliders (1 - (P.actual_state).turn)
          &&& d12_moves (P.king (P.actual_state).turn) P.occupancy)
        + bit_count (P.hv_sliders (1 - (P.actual_state).turn)
          &&& hv_moves (P.king (P.actual_state).turn) P.occupancy) := by
    unfold Position.attackers_from
    have e1 : 1 - (1 - (P.actual_state).turn) = (P.actual_state).turn := by omega
    rw [e1]
    rw [Nat.and_comm (d12_moves (P.king (P.actual_state).turn) P.occupancy)
      (P.d12_sliders (1 - (P.actual_state).turn))]
    rw [Nat.and_comm (hv_moves (P.king (P.actual_state).turn) P.occupancy)
      (P.hv_sliders (1 - (P.actual_state).turn))]
    have e4 : pawnAtt (P.actual_state).turn (P.king (P.actual_state).turn)
          &&& P.pieces_bb (1 - (P.actual_state).turn) 0
        ||| knightMask (P.king (P.actual_state).turn)
          &&& P.pieces_bb (1 - (P.actual_state).turn) 1
        = Position.cpCm0 P := by
      unfold Position.cpCm0
      rw [Nat.or_comm]
    rw [e4]
    have step1 := bit_count_or_le
      (Position.cpCm0 P
        ||| P.d12_sliders (1 - (P.actual_state).turn)
          &&& d12_moves (P.king (P.actual_state).turn) P.occupancy)
      (P.hv_sliders (1 - (P.actual_state).turn)
        &&& hv_moves (P.king (P.actual_state).turn) P.occupancy)
    have step2 := bit_count_or_le (Position.cpCm0 P)
      (P.d12_sliders (1 - (P.actual_state).turn)
        &&& d12_moves (P.king (P.actual_state).turn) P.occupancy)
    omega
  have hcnt : 2 ≤ (Position.cpD12Fold P).2.1 := by omega
  have hcp : (P.check_and_pin).1
      = if (Position.cpD12Fold P).2.1 > 1 then 0
        else if (Position.cpD12Fold P).2.1 = 0 then UMAX
        else (Position.cpD12Fold P).1 := rfl
  have hcm0 : (P.check_and_pin).1 = 0 := by
    rw [hcp, if_pos (by omega : (Position.cpD12Fold P).2.1 > 1)]
  refine ⟨hcm0, fun fuel => ?_⟩
  have hkbb : P.pieces_bb (P.actual_state).turn 5 ≠ 0 := by
    rcases hturn01 with ht | ht <;> rw [ht]
    · exact hwk
    · exact hbk
  have hkblt : P.pieces_bb (P.actual_state).turn 5 < 2 ^ 64 := by
    rcases hturn01 with ht | ht <;> rw [ht]
    · exact hbound (0, 5) (by decide)
    · exact hbound (1, 5) (by decide)
  have hkg : P.king (P.actual_state).turn < 64 := bit_scan_lt _ hkbb hkblt
  exact legal_king_only P hkg (by rw [hcache, hcm0]) fuel

/-- fenC4 is a double-check position: the white king on e1 is checked by the black
knight on d3 and the black bishop on h4. -/
def fenC4 : String := "4k3/8/8/8/7b/3n4/8/4K3 w - - 0 1"

/-- posC4 is the parsed `fenC4`. -/
def posC4 : Position :=
  match Position.from_str fenC4 with
  | .ok P => P
  | _ => Position.new

/-- double_check_witness: the C4 theorem applied to the concrete double-check
position `posC4`, with all hypotheses discharged by evaluation. -/
theorem double_check_witness :
    (posC4.check_and_pin).1 = 0 ∧
      ∀ fuel, ∃ l, posC4.legal fuel = some l ∧
        ∀ mv ∈ l.moves, Move.fromSq mv = posC4.king ((posC4.actual_state).turn) :=
  double_check_zero_mask_king_moves_only posC4
    ⟨by decide, by decide, by decide, by decide, by decide⟩ rfl (by decide)

/-- makePromoCapture_ep: the capturing-promotion branch body never touches the `ep`
field of the frame it updates. -/
theorem makePromoCapture_ep (bbs : Nat → Nat → Nat) (hash : Nat) (stOld f : State)
    (a b pc : Nat) (eu : Bool) (r : (Nat → Nat → Nat) × Nat × State)
    (h : makePromoCapture bbs hash stOld f a b pc eu = some r) : r.2.2.ep = f.ep := by
  unfold makePromoCapture at h
  simp only [Option.bind_eq_bind, Option.bind_eq_some, Option.some.injEq] at h
  obtain ⟨cap, hcap, h⟩ := h
  subst h
  rfl

/-- makeRes_ep: no branch of the make_move dispatch other than DOUBLE_PUSH writes
the `ep` field of the new frame — it stays whatever `f0` carried. -/
theorem makeRes_ep (P : Position) (st f0 : State) (p0 : Nat) (mv : Move)
    (res : (Nat → Nat → Nat) × Nat × State × Bool)
    (h : Position.makeRes P st f0 p0 mv = some res) (hfl : Move.flag mv ≠ 2) :
    res.2.2.1.ep = f0.ep := by
  simp only [Position.makeRes] at h
  by_cases h0 : Move.flag mv = Move.QUIET
  · rw [if_pos h0] at h
    simp only [Option.bind_eq_bind, Option.bind_eq_some, Option.some.injEq] at h
    obtain ⟨m1, hm1, h⟩ := h
    subst h; rfl
  rw [if_neg h0] at h
  by_cases h1 : Move.flag mv = Move.DOUBLE_PUSH
  · exact absurd h1 hfl
  rw [if_neg h1] at h
  by_cases h2 : Move.flag mv = Move.CASTLE_00
  · rw [if_pos h2] at h
    by_cases ht : st.turn = 0
    · rw [if_pos ht] at h
      simp only [Option.bind_eq_bind, Option.bind_eq_some, Option.some.injEq] at h
      obtain ⟨m1, hm1, m2, hm2, h⟩ := h
      subst h; rfl
    · rw [if_neg ht] at h
      simp only [Option.bind_eq_bind, Option.bind_eq_some, Option.some.injEq] at h
      obtain ⟨m1, hm1, m2, hm2, h⟩ := h
      subst h; rfl
  rw [if_neg h2] at h
  by_cases h3 : Move.flag mv = Move.CASTLE_000
  · rw [if_pos h3] at h
    by_cases ht : st.turn = 0
    · rw [if_pos ht] at h
      simp only [Option.bind_eq_bind, Option.bind_eq_some, Option.some.injEq] at h
      obtain ⟨m1, hm1, m2, hm2, h⟩ := h
      subst h; rfl
    · rw [if_neg ht] at h
      simp only [Option.bind_eq_bind, Option.bind_eq_some, Option.some.injEq] at h
      obtain ⟨m1, hm1, m2, hm2, h⟩ := h
      subst h; rfl
  rw [if_neg h3] at h
  by_cases h4 : Move.flag mv = Move.EN_PASSANT
  · rw [if_pos h4] at h
    simp only [Option.bind_eq_bind, Option.bind_eq_some, Option.some.injEq] at h
    obtain ⟨m1, hm1, h⟩ := h
    subst h; rfl
  rw [if_neg h4] at h
  by_cases h5 : Move.flag mv = Move.PR_N
  · rw [if_pos h5] at h
    simp only [Option.some.injEq] at h
    subst h; rfl
  rw [if_neg h5] at h
  by_cases h6 : Move.flag mv = Move.PR_B
  · rw [if_pos h6] at h
    simp only [Option.some.injEq] at h
    subst h; rfl
  rw [if_neg h6] at h
  by_cases h7 : Move.flag mv = Move.PR_R
  · rw [if_pos h7] at h
    simp only [Option.some.injEq] at h
    subst h; rfl
  rw [if_neg h7] at h
  by_cases h8 : Move.flag mv = Move.PR_Q
  · rw [if_pos h8] at h
    simp only [Option.some.injEq] at h
    subst h; rfl
  rw [if_neg h8] at h
  by_cases h9 : Move.flag mv = Move.PC_N
  · rw [if_pos h9] at h
    simp only [Option.bind_eq_bind, Option.bind_eq_some, Option.some.injEq] at h
    obtain ⟨r, hr, h⟩ := h
    subst h
    exact makePromoCapture_ep _ _ _ _ _ _ _ _ _ hr
  rw [if_neg h9] at h
  by_cases h10 : Move.flag mv = Move.PC_B
  · rw [if_pos h10] at h
    simp only [Option.bind_eq_bind, Option.bind_eq_some, Option.some.injEq] at h
    obtain ⟨r, hr, h⟩ := h
    subst h
    exact makePromoCapture_ep _ _ _ _ _ _ _ _ _ hr
  rw [if_neg h10] at h
  by_cases h11 : Move.flag mv = Move.PC_R
  · rw [if_pos h11] at h
    simp only [Option.bind_eq_bind, Option.bind_eq_some, Option.some.injEq] at h
    obtain ⟨r, hr, h⟩ := h
    subst h
    exact makePromoCapture_ep _ _ _ _ _ _ _ _ _ hr
  rw [if_neg h11] at h
  by_cases h12 : Move.flag mv = Move.PC_Q
  · rw [if_pos h12] at h
    simp only [Option.bind_eq_bind, Option.bind_eq_some, Option.some.injEq] at h
    obtain ⟨r, hr, h⟩ := h
    subst h
    exact makePromoCapture_ep _ _ _ _ _ _ _ _ _ hr
  rw [if_neg h12] at h
  by_cases h13 : Move.flag mv = Move.CAPTURE
  · rw [if_pos h13] at h
    simp only [Option.bind_eq_bind, Option.bind_eq_some, Option.some.injEq] at h
    obtain ⟨cap, hcap, m1, hm1, h⟩ := h
    subst h; rfl
  rw [if_neg h13] at h
  exact Option.noConfusion h

/-- make_shape: a successful `make_move` produces the position assembled from the
dispatch result: ply incremented, and the history updated at the new ply with the
dispatched frame completed by the halfmove rule. -/
theorem make_shape (P P' : Position) (mv : Move) (h : P.make_move mv = some P') :
    ∃ p0 res,
      P.piece_on (Move.fromSq mv) = some p0 ∧
      Position.makeRes P P.actual_state
        { P.history (P.ply + 1) with
          turn := 1 - (P.actual_state).turn,
          castling := (P.actual_state).castling,
          hm := (P.actual_state).hm,
          fm := if (P.actual_state).turn = 1 then (P.actual_state).fm + 1
            else (P.actual_state).fm } p0 mv = some res ∧
      P'.ply = P.ply + 1 ∧
      P'.history = updHist P.history (P.ply + 1)
        { res.2.2.1 with
          hm := if p0 = 0 ∨ res.2.2.2 = true then 0 else (P.actual_state).hm + 1 } := by
  unfold Position.make_move at h
  split at h
  · exact Option.noConfusion h
  · simp only [Option.bind_eq_bind, Option.bind_eq_some, Option.some.injEq] at h
    obtain ⟨p0, hp0, res, hres, hP⟩ := h
    refine ⟨p0, res, hp0, hres, ?_, ?_⟩
    · rw [← hP]; rfl
    · rw [← hP]; rfl

/-- undo_shape: a successful `undo_move` decrements the ply and resets the history
slot at the old ply to the empty frame. -/
theorem undo_shape (P P' : Position) (mv : Move) (h : P.undo_move mv = some P') :
    P'.ply = P.ply - 1 ∧ P'.history = updHist P.history P.ply State.new := by
  unfold Position.undo_move at h
  split at h
  · exact Option.noConfusion h
  · simp only [Option.bind_eq_bind, Option.bind_eq_some, Option.some.injEq] at h
    obtain ⟨res, hres, hP⟩ := h
    constructor
    · rw [← hP]; rfl
    · rw [← hP]; rfl

/-- poutBind_eq_ok: a `poutBind` chain succeeds exactly when both steps succeed. -/
theorem poutBind_eq_ok {α β : Type} (x : POut α) (f : α → POut β) (b : β) :
    poutBind x f = .ok b ↔ ∃ a, x = .ok a ∧ f a = .ok b := by
  cases x <;> simp [poutBind]

/-- fromStrFields_shape: whenever the field-parsing tail succeeds, the resulting
position sits at ply 0 and every history slot above 0 is the empty frame. -/
theorem fromStrFields_shape (bbs : Nat → Nat → Nat) (params : List (List Char))
    (P : Position) (h : fromStrFields bbs params = .ok P) :
    P.ply = 0 ∧ ∀ i, 0 < i → P.history i = State.new := by
  simp only [fromStrFields] at h
  by_cases hlen : params.length < 6
  · rw [if_pos hlen] at h
    exact POut.noConfusion h
  rw [if_neg hlen] at h
  simp only [poutBind_eq_ok, POut.ok.injEq] at h
  obtain ⟨ep, hep, hm, hhm, fm, hfm, h⟩ := h
  subst h
  refine ⟨rfl, fun i hi => ?_⟩
  show updHist (fun _ => State.new) 0 _ i = State.new
  unfold updHist
  rw [if_neg (by omega)]

/-- fromStr_shape: a successful parse starts at ply 0 with every later history slot
equal to the empty frame. -/
theorem fromStr_shape (s : String) (P : Position) (h : Position.from_str s = .ok P) :
    P.ply = 0 ∧ ∀ i, 0 < i → P.history i = State.new := by
  cases hpr : parseRanksChars (splitCh '/' ((splitCh ' ' s.data).headD [])).reverse 0
      (fun _ _ => 0) with
  | none =>
    simp only [Position.from_str, fromStrChars, hpr] at h
    exact POut.noConfusion h
  | some pr =>
    obtain ⟨bbs, sq⟩ := pr
    simp only [Position.from_str, fromStrChars, hpr] at h
    by_cases hk : bbs 0 5 = 0 ∨ bbs 1 5 = 0
    · rw [if_pos hk] at h
      exact POut.noConfusion h
    · rw [if_neg hk] at h
      exact fromStrFields_shape bbs (splitCh ' ' s.data) P h

/-- Reachable holds of every position obtained from a FEN parse followed by any
sequence of (non-panicking) make_move / undo_move calls. -/
inductive Reachable : Position → Prop where
  | base (s : String) (P : Position) : Position.from_str s = .ok P → Reachable P
  | mk (P P' : Position) (mv : Move) : Reachable P → P.make_move mv = some P' →
      Reachable P'
  | un (P P' : Position) (mv : Move) : Reachable P → P.undo_move mv = some P' →
      Reachable P'

/-- reachable_hist: in every reachable position, every history frame above the
current ply is the empty frame `State::new()`. -/
theorem reachable_hist (P : Position) (h : Reachable P) :
    ∀ i, P.ply < i → P.history i = State.new := by
  induction h with
  | base s P h0 =>
    intro i hi
    obtain ⟨hply, hh⟩ := fromStr_shape s P h0
    exact hh i (by omega)
  | mk P P' mv hr hstep ih =>
    intro i hi
    obtain ⟨p0, res, hp0, hres, hply, hhist⟩ := make_shape P P' mv hstep
    rw [hhist]
    unfold updHist
    rw [if_neg (by omega)]
    exact ih i (by omega)
  | un P P' mv hr hstep ih =>
    intro i hi
    obtain ⟨hply, hhist⟩ := undo_shape P P' mv hstep
    rw [hhist]
    unfold updHist
    by_cases hip : i = P.ply
    · rw [if_pos hip]
    · rw [if_neg hip]
      exact ih i (by omega)

/-- C10: in every reachable position, every history frame with index strictly above
the ply equals `State::new()`; consequently the frame `make_move` writes at the new
ply inherits `ep = None` (and `captured = None`), so any successful move other than
DOUBLE_PUSH produces a state whose en-passant square is `None`. -/
theorem reachable_history_frames (P : Position) (h : Reachable P) :
    (∀ i, P.ply < i → P.history i = State.new) ∧
      ∀ mv P', P.make_move mv = some P' → Move.flag mv ≠ 2 →
        (P'.history P'.ply).ep = none := by
  have hinv := reachable_hist P h
  refine ⟨hinv, fun mv P' hmk hfl => ?_⟩
  obtain ⟨p0, res, hp0, hres, hply, hhist⟩ := make_shape P P' mv hmk
  rw [hhist, hply]
  unfold updHist
  rw [if_pos rfl]
  show res.2.2.1.ep = none
  rw [makeRes_ep P _ _ p0 mv res hres hfl]
  show (P.history (P.ply + 1)).ep = none
  rw [hinv (P.ply + 1) (by omega)]
  rfl

/-- reachable_history_frames_witness: the C10 theorem applied to the parsed initial
position, reachable by the base rule. -/
theorem reachable_history_frames_witness :
    (∀ i, posStart.ply < i → posStart.history i = State.new) ∧
      ∀ mv P', posStart.make_move mv = some P' → Move.flag mv ≠ 2 →
        (P'.history P'.ply).ep = none :=
  reachable_history_frames posStart (Reachable.base fenStart posStart rfl)

/-- digitChar_isDigit: the rendered decimal digit characters are digits. -/
theorem digitChar_isDigit (d : Nat) (h : d < 10) :
    (Char.ofNat (48 + d)).isDigit = true := by
  interval_cases d <;> decide

/-- digitChar_val: `digitVal` inverts the rendering of a decimal digit. -/
theorem digitChar_val (d : Nat) (h : d < 10) : digitVal (Char.ofNat (48 + d)) = d := by
  interval_cases d <;> decide

/-- isDigit_ne: a digit character is not a space, a slash or a dash. -/
theorem isDigit_ne (c : Char) (h : c.isDigit = true) :
    c ≠ ' ' ∧ c ≠ '/' ∧ c ≠ '-' := by
  refine ⟨?_, ?_, ?_⟩ <;> intro he <;> subst he <;> exact absurd h (by decide)

/-- natToCharsAux_digits: every rendered character is a digit. -/
theorem natToCharsAux_digits (fuel : Nat) :
    ∀ n, ∀ c ∈ natToCharsAux fuel n, c.isDigit = true := by
  induction fuel with
  | zero => intro n c hc; simp [natToCharsAux] at hc
  | succ fuel ih =>
    intro n c hc
    unfold natToCharsAux at hc
    by_cases hn : n = 0
    · rw [if_pos hn] at hc; simp at hc
    · rw [if_neg hn] at hc
      rcases List.mem_append.mp hc with h1 | h2
      · exact ih (n / 10) c h1
      · have he : c = Char.ofNat (48 + n % 10) := by simpa using h2
        subst he
        exact digitChar_isDigit _ (Nat.mod_lt _ (by omega))

/-- natToChars_digits: every character of a rendered number is a digit. -/
theorem natToChars_digits (n : Nat) : ∀ c ∈ natToChars n, c.isDigit = true := by
  unfold natToChars
  by_cases hn : n = 0
  · rw [if_pos hn]; intro c hc; simp at hc; subst hc; decide
  · rw [if_neg hn]; exact natToCharsAux_digits n n

/-- natToChars_ne_dash: a rendered number is never the dash placeholder. -/
theorem natToChars_ne_dash (n : Nat) : natToChars n ≠ ['-'] := by
  intro h
  have hd := natToChars_digits n '-' (by rw [h]; simp)
  exact absurd hd (by decide)

/-- natToCharsAux_foldl: folding the decimal digits of `n` onto an accumulator. -/
theorem natToCharsAux_foldl (fuel : Nat) :
    ∀ n a, n ≤ fuel →
      (natToCharsAux fuel n).foldl (fun a c => a * 10 + digitVal c) a =
        a * 10 ^ (natToCharsAux fuel n).length + n := by
  induction fuel with
  | zero =>
    intro n a h
    interval_cases n
    simp [natToCharsAux]
  | succ fuel ih =>
    intro n a h
    unfold natToCharsAux
    by_cases hn : n = 0
    · rw [if_pos hn]; simp [hn]
    · rw [if_neg hn]
      have hdiv : n / 10 < n := Nat.div_lt_self (by omega) (by omega)
      rw [List.foldl_append]
      simp only [List.foldl_cons, List.foldl_nil]
      rw [ih (n / 10) a (by omega)]
      rw [digitChar_val (n % 10) (Nat.mod_lt _ (by omega))]
      rw [List.length_append, List.length_singleton]
      have hmod := Nat.div_add_mod n 10
      have hx : (a * 10 ^ (natToCharsAux fuel (n / 10)).length + n / 10) * 10 + n % 10 =
          a * (10 ^ (natToCharsAux fuel (n / 10)).length * 10) +
            (10 * (n / 10) + n % 10) := by ring
      rw [hx, hmod, ← pow_succ]

/-- natToCharsAux_ne_nil: a nonzero number renders at least one digit. -/
theorem natToCharsAux_ne_nil (fuel n : Nat) (h1 : n ≠ 0) (h2 : n ≤ fuel) :
    natToCharsAux fuel n ≠ [] := by
  cases fuel with
  | zero => omega
  | succ fuel =>
    unfold natToCharsAux
    rw [if_neg h1]
    simp

/-- parseNat_natToChars: parsing a rendered number returns it. -/
theorem parseNat_natToChars (n : Nat) : parseNatChars (natToChars n) = some n := by
  by_cases hn : n = 0
  · subst hn; decide
  · unfold parseNatChars natToChars
    rw [if_neg hn]
    have hcond : natToCharsAux n n ≠ [] ∧ (natToCharsAux n n).all Char.isDigit := by
      refine ⟨natToCharsAux_ne_nil n n hn le_rfl, ?_⟩
      exact List.all_eq_true.mpr (fun c hc => natToCharsAux_digits n n c hc)
    rw [if_pos hcond]
    rw [natToCharsAux_foldl n n 0 le_rfl]
    simp

/-- natToChars_single: a number from 1 to 9 renders as its single digit. -/
theorem natToChars_single (em : Nat) (h1 : 1 ≤ em) (h2 : em ≤ 9) :
    natToChars em = [Char.ofNat (48 + em)] := by
  interval_cases em <;> decide

/-- splitCh_no_sep: splitting a list free of the separator gives it back whole. -/
theorem splitCh_no_sep (c : Char) (xs : List Char) (h : c ∉ xs) :
    splitCh c xs = [xs] := by
  induction xs with
  | nil => rfl
  | cons x xs ih =>
    have hx : x ≠ c := fun he => h (by simp [he])
    unfold splitCh
    rw [if_neg hx, ih (fun hm => h (List.mem_cons_of_mem _ hm))]

/-- splitCh_sep: splitting peels off a separator-free prefix. -/
theorem splitCh_sep (c : Char) (xs ys : List Char) (h : c ∉ xs) :
    splitCh c (xs ++ c :: ys) = xs :: splitCh c ys := by
  induction xs with
  | nil => simp [splitCh]
  | cons x xs ih =>
    have hx : x ≠ c := fun he => h (by simp [he])
    simp only [List.cons_append]
    rw [splitCh, if_neg hx, ih (fun hm => h (List.mem_cons_of_mem _ hm))]

/-- pieceCharOf_spec: the rendered letter of an in-range piece is not a digit, parses
back to the same piece and color, and is neither a space nor a slash. -/
theorem pieceCharOf_spec : ∀ c, c < 2 → ∀ p, p < 6 →
    (pieceCharOf (c, p)).isDigit = false ∧
    pieceFromChar (pieceCharOf (c, p)) = some p ∧
    (if (pieceCharOf (c, p)).isUpper then 0 else 1) = c ∧
    pieceCharOf (c, p) ≠ ' ' ∧ pieceCharOf (c, p) ≠ '/' := by
  decide

/-- squareChars_spec: a rendered square name is space-free, is not the dash
placeholder, and parses back to the same square. -/
theorem squareChars_spec : ∀ s, s < 64 →
    ' ' ∉ squareChars s ∧ squareChars s ≠ ['-'] ∧
      sqFromChars (squareChars s) = some s := by
  decide

/-- mem_cpPairs: every in-range (color, piece) pair is in the scan order list. -/
theorem mem_cpPairs : ∀ c, c < 2 → ∀ p, p < 6 → (c, p) ∈ cpPairs := by
  decide

/-- mem_fenRankAux: a character of a rendered rank is a digit or a piece letter of
one of the cells. -/
theorem mem_fenRankAux (cl : List (Option (Nat × Nat))) :
    ∀ em, ∀ ch ∈ fenRankAux cl em,
      ch.isDigit = true ∨ ∃ cp, some cp ∈ cl ∧ ch = pieceCharOf cp := by
  induction cl with
  | nil =>
    intro em ch hch
    unfold fenRankAux at hch
    by_cases he : em ≠ 0
    · rw [if_pos he] at hch
      exact Or.inl (natToChars_digits em ch hch)
    · rw [if_neg he] at hch; simp at hch
  | cons x rest ih =>
    intro em ch hch
    match x with
    | none =>
      have hch' : ch ∈ fenRankAux rest (em + 1) := hch
      exact (ih (em + 1) ch hch').imp id
        (fun hex => hex.elim (fun cp hcp => ⟨cp, List.mem_cons_of_mem _ hcp.1, hcp.2⟩))
    | some cp₀ =>
      have hch' : ch ∈ (if em ≠ 0 then natToChars em else []) ++ [pieceCharOf cp₀]
          ++ fenRankAux rest 0 := hch
      rcases List.mem_append.mp hch' with h1 | h2
      · rcases List.mem_append.mp h1 with h3 | h4
        · by_cases he : em ≠ 0
          · rw [if_pos he] at h3
            exact Or.inl (natToChars_digits em ch h3)
          · rw [if_neg he] at h3; simp at h3
        · have he : ch = pieceCharOf cp₀ := by simpa using h4
          exact Or.inr ⟨cp₀, by simp, he⟩
      · exact (ih 0 ch h2).imp id
          (fun hex => hex.elim (fun cp hcp => ⟨cp, List.mem_cons_of_mem _ hcp.1, hcp.2⟩))

/-- mem_renderBoardAux: a character of the rendered placement is a slash or comes
from one of the rendered ranks. -/
theorem mem_renderBoardAux (cells : Nat → Option (Nat × Nat)) (n : Nat) :
    ∀ ch ∈ renderBoardAux cells n,
      ch = '/' ∨ ∃ i, i < n ∧ ch ∈ fenRankAux (renderCells cells i) 0 := by
  induction n with
  | zero => intro ch hch; simp [renderBoardAux] at hch
  | succ n ih =>
    intro ch hch
    unfold renderBoardAux at hch
    rcases List.mem_append.mp hch with h1 | h2
    · rcases List.mem_append.mp h1 with h3 | h4
      · exact Or.inr ⟨n, by omega, h3⟩
      · by_cases hn : n ≠ 0
        · rw [if_pos hn] at h4
          exact Or.inl (by simpa using h4)
        · rw [if_neg hn] at h4; simp at h4
    · exact (ih ch h2).imp id (fun hex => hex.elim (fun i hi => ⟨i, by omega, hi.2⟩))

/-- renderCells_wf: the cells of a rendered rank of a wellformed record are in
range. -/
theorem renderCells_wf (r : FenRec) (h : FenWf r) (i : Nat) (hi : i < 8) :
    ∀ cp, some cp ∈ renderCells r.cells i → cp.1 < 2 ∧ cp.2 < 6 := by
  intro cp hcp
  unfold renderCells at hcp
  rcases List.mem_map.mp hcp with ⟨f, hf, hEq⟩
  exact h.2.2.1 (i * 8 + f) (by have := List.mem_range.mp hf; omega) cp hEq

/-- fenRank_char_ne: no character of a wellformed rendered rank is a space or a
slash. -/
theorem fenRank_char_ne (r : FenRec) (h : FenWf r) (i : Nat) (hi : i < 8) :
    ∀ ch ∈ fenRankAux (renderCells r.cells i) 0, ch ≠ ' ' ∧ ch ≠ '/' := by
  intro ch hch
  rcases mem_fenRankAux (renderCells r.cells i) 0 ch hch with h1 | ⟨cp, h2, h3⟩
  · exact ⟨(isDigit_ne ch h1).1, (isDigit_ne ch h1).2.1⟩
  · obtain ⟨c, p⟩ := cp
    have hwf := renderCells_wf r h i hi (c, p) h2
    have hs := pieceCharOf_spec c hwf.1 p hwf.2
    subst h3
    exact ⟨hs.2.2.2.1, hs.2.2.2.2⟩

/-- renderBoard_no_space: the rendered placement of a wellformed record is
space-free. -/
theorem renderBoard_no_space (r : FenRec) (h : FenWf r) :
    ' ' ∉ renderBoardAux r.cells 8 := by
  intro hch
  rcases mem_renderBoardAux r.cells 8 ' ' hch with h1 | ⟨i, hi, h2⟩
  · exact absurd h1 (by decide)
  · exact (fenRank_char_ne r h i hi ' ' h2).1 rfl

/-- castlingChars_no_space: the rendered castling field is space-free. -/
theorem castlingChars_no_space (st : State) : ' ' ∉ castlingChars st := by
  unfold castlingChars
  split_ifs <;> simp

/-- epChars_no_space: the rendered en-passant field of a wellformed record is
space-free. -/
theorem epChars_no_space (r : FenRec) (h : FenWf r) : ' ' ∉ epChars (stOf r) := by
  unfold epChars
  cases hep : (stOf r).ep with
  | none => simp
  | some s =>
    have hs : s < 64 := h.2.2.2.2.2 s hep
    exact (squareChars_spec s hs).1

/-- turnChars_no_space: the rendered side-to-move field is space-free. -/
theorem turnChars_no_space (t : Nat) :
    ' ' ∉ (if t = 0 then ['w'] else ['b']) := by
  split_ifs <;> simp

/-- natToChars_no_space: a rendered number is space-free. -/
theorem natToChars_no_space (n : Nat) : ' ' ∉ natToChars n := by
  intro hch
  exact (isDigit_ne ' ' (natToChars_digits n ' ' hch)).1 rfl

/-- splitCh_renderFen: splitting a rendered FEN on spaces yields exactly its six
fields. -/
theorem splitCh_renderFen (r : FenRec) (h : FenWf r) :
    splitCh ' ' (renderFenChars r) =
      [renderBoardAux r.cells 8, if r.turn = 0 then ['w'] else ['b'],
        castlingChars (stOf r), epChars (stOf r), natToChars r.hm,
        natToChars r.fm] := by
  unfold renderFenChars
  simp only [List.append_assoc, List.singleton_append, List.cons_append,
    List.nil_append]
  rw [splitCh_sep _ _ _ (renderBoard_no_space r h)]
  rw [splitCh_sep _ _ _ (turnChars_no_space r.turn)]
  rw [splitCh_sep _ _ _ (castlingChars_no_space (stOf r))]
  rw [splitCh_sep _ _ _ (epChars_no_space r h)]
  rw [splitCh_sep _ _ _ (natToChars_no_space r.hm)]
  rw [splitCh_no_sep _ _ (natToChars_no_space r.fm)]

/-- splitCh_renderBoardAux: splitting the rendered placement on slashes yields the
rendered ranks, topmost first. -/
theorem splitCh_renderBoardAux (r : FenRec) (h : FenWf r) :
    ∀ n, n ≤ 8 → n ≠ 0 → splitCh '/' (renderBoardAux r.cells n) =
      ((List.range n).map (fun i => fenRankAux (renderCells r.cells i) 0)).reverse := by
  intro n
  induction n with
  | zero => omega
  | succ n ih =>
    intro hn8 _
    unfold renderBoardAux
    by_cases hn : n = 0
    · subst hn
      simp only [ne_eq, not_true_eq_false, if_false, List.append_nil, renderBoardAux]
      rw [splitCh_no_sep _ _ (fun hm => (fenRank_char_ne r h 0 (by omega) '/' hm).2 rfl)]
      simp [List.range_succ]
    · rw [if_pos hn]
      rw [show fenRankAux (renderCells r.cells n) 0 ++ ['/'] ++ renderBoardAux r.cells n
          = fenRankAux (renderCells r.cells n) 0 ++ '/' :: renderBoardAux r.cells n from
          by simp]
      rw [splitCh_sep _ _ _
        (fun hm => (fenRank_char_ne r h n (by omega) '/' hm).2 rfl)]
      rw [ih (by omega) hn]
      rw [List.range_succ]
      simp

/-- parseRankChars_append: the placement scanner processes concatenated input by
sequencing. -/
theorem parseRankChars_append (xs ys : List Char) :
    ∀ sq bbs, parseRankChars (xs ++ ys) sq bbs =
      (parseRankChars xs sq bbs).bind (fun r => parseRankChars ys r.2 r.1) := by
  induction xs with
  | nil => intro sq bbs; simp [parseRankChars]
  | cons x xs ih =>
    intro sq bbs
    simp only [List.cons_append]
    rw [parseRankChars, parseRankChars]
    by_cases hd : x.isDigit
    · rw [if_pos hd, if_pos hd]
      exact ih (sq + digitVal x) bbs
    · rw [if_neg hd, if_neg hd]
      cases hp : pieceFromChar x with
      | none => simp
      | some p =>
        simp only [Option.bind_eq_bind, Option.some_bind]
        by_cases hsq : sq ≥ 64
        · rw [if_pos hsq, if_pos hsq]; simp
        · rw [if_neg hsq, if_neg hsq]
          exact ih (sq + 1) _

/-- parseRank_fenRank: parsing a rendered rank places exactly its cells, the pending
empty run shifting the running square. -/
theorem parseRank_fenRank :
    ∀ (cl : List (Option (Nat × Nat))) (em sq : Nat) (bbs : Nat → Nat → Nat),
      (∀ cp, some cp ∈ cl → cp.1 < 2 ∧ cp.2 < 6) → em + cl.length ≤ 9 →
      parseRankChars (fenRankAux cl em) sq bbs = placeCells cl (sq + em) bbs := by
  intro cl
  induction cl with
  | nil =>
    intro em sq bbs _ hlen
    unfold fenRankAux
    by_cases he : em ≠ 0
    · rw [if_pos he]
      rw [natToChars_single em (by omega) (by simp at hlen; omega)]
      rw [parseRankChars]
      rw [if_pos (digitChar_isDigit em (by simp at hlen; omega))]
      rw [digitChar_val em (by simp at hlen; omega)]
      rfl
    · rw [if_neg he]
      rw [show em = 0 by omega]
      rfl
  | cons x rest ih =>
    intro em sq bbs hwf hlen
    match x with
    | none =>
      show parseRankChars (fenRankAux rest (em + 1)) sq bbs = _
      rw [ih (em + 1) sq bbs (fun cp hcp => hwf cp (List.mem_cons_of_mem _ hcp))
        (by simp at hlen ⊢; omega)]
      rfl
    | some cp₀ =>
      obtain ⟨hc, hp⟩ := hwf cp₀ (by simp)
      have hs := pieceCharOf_spec cp₀.1 hc cp₀.2 hp
      have hstep : ∀ sq' bbs',
          parseRankChars (pieceCharOf (cp₀.1, cp₀.2) :: fenRankAux rest 0) sq' bbs' =
            placeCells (some cp₀ :: rest) sq' bbs' := by
        intro sq' bbs'
        rw [parseRankChars]
        rw [if_neg (by rw [hs.1]; exact Bool.false_ne_true)]
        rw [hs.2.1]
        simp only [Option.bind_eq_bind, Option.some_bind]
        rw [hs.2.2.1]
        by_cases hsq : sq' ≥ 64
        · rw [if_pos hsq]
          show _ = (if sq' ≥ 64 then none else _)
          rw [if_pos hsq]
        · rw [if_neg hsq]
          rw [ih 0 (sq' + 1) _ (fun cp hcp => hwf cp (List.mem_cons_of_mem _ hcp))
            (by simp at hlen ⊢; omega)]
          show placeCells rest (sq' + 1 + 0) _ = (if sq' ≥ 64 then none else _)
          rw [if_neg hsq]
      show parseRankChars ((if em ≠ 0 then natToChars em else []) ++
          [pieceCharOf cp₀] ++ fenRankAux rest 0) sq bbs = _
      by_cases he : em ≠ 0
      · rw [if_pos he]
        rw [natToChars_single em (by omega) (by simp at hlen; omega)]
        have hform : [Char.ofNat (48 + em)] ++ [pieceCharOf cp₀] ++ fenRankAux rest 0 =
            Char.ofNat (48 + em) :: (pieceCharOf (cp₀.1, cp₀.2) :: fenRankAux rest 0) := by
          simp
        rw [hform]
        rw [parseRankChars]
        rw [if_pos (digitChar_isDigit em (by simp at hlen; omega))]
        rw [digitChar_val em (by simp at hlen; omega)]
        exact hstep (sq + em) bbs
      · rw [if_neg he]
        have hform : ([] : List Char) ++ [pieceCharOf cp₀] ++ fenRankAux rest 0 =
            pieceCharOf (cp₀.1, cp₀.2) :: fenRankAux rest 0 := by simp
        rw [hform, show em = 0 by omega]
        exact hstep (sq + 0) bbs

/-- placeCells_append: placing concatenated cell lists sequences. -/
theorem placeCells_append :
    ∀ (xs ys : List (Option (Nat × Nat))) (sq : Nat) (bbs : Nat → Nat → Nat),
      placeCells (xs ++ ys) sq bbs =
        (placeCells xs sq bbs).bind (fun s => placeCells ys s.2 s.1) := by
  intro xs
  induction xs with
  | nil => intro ys sq bbs; simp [placeCells]
  | cons x rest ih =>
    intro ys sq bbs
    match x with
    | none => exact ih ys (sq + 1) bbs
    | some cp =>
      show (if sq ≥ 64 then none else _) = (if sq ≥ 64 then none else _).bind _
      by_cases hsq : sq ≥ 64
      · rw [if_pos hsq, if_pos hsq]; rfl
      · rw [if_neg hsq, if_neg hsq]
        exact ih ys (sq + 1) _

/-- parseRanks_fenRanks: parsing a list of rendered ranks places their joined
cells. -/
theorem parseRanks_fenRanks :
    ∀ (rs : List (List (Option (Nat × Nat)))) (sq : Nat) (bbs : Nat → Nat → Nat),
      (∀ cl ∈ rs, (∀ cp, some cp ∈ cl → cp.1 < 2 ∧ cp.2 < 6) ∧ cl.length ≤ 9) →
      parseRanksChars (rs.map (fun cl => fenRankAux cl 0)) sq bbs =
        placeCells rs.flatten sq bbs := by
  intro rs
  induction rs with
  | nil => intro sq bbs _; rfl
  | cons cl rest ih =>
    intro sq bbs hcl
    show (parseRankChars (fenRankAux cl 0) sq bbs).bind _ = _
    rw [parseRank_fenRank cl 0 sq bbs (hcl cl (by simp)).1
      (by have := (hcl cl (by simp)).2; omega)]
    show _ = placeCells (cl ++ rest.flatten) sq bbs
    rw [placeCells_append]
    rw [Nat.add_zero]
    cases hpc : placeCells cl sq bbs with
    | none => rfl
    | some s1 =>
      simp only [Option.some_bind]
      exact ih s1.2 s1.1 (fun c hc => hcl c (List.mem_cons_of_mem _ hc))

/-- placeCells_spec: placing an in-bounds cell list succeeds, advances the square by
the length, and sets exactly the bits of the piece cells. -/
theorem placeCells_spec :
    ∀ (cl : List (Option (Nat × Nat))) (sq : Nat) (bbs : Nat → Nat → Nat),
      sq + cl.length ≤ 64 →
      ∃ bbs', placeCells cl sq bbs = some (bbs', sq + cl.length) ∧
        ∀ c p t, ((bbs' c p).testBit t = true ↔
          ((bbs c p).testBit t = true ∨
            (sq ≤ t ∧ t < sq + cl.length ∧ cl.getD (t - sq) none = some (c, p)))) := by
  intro cl
  induction cl with
  | nil =>
    intro sq bbs _
    refine ⟨bbs, rfl, ?_⟩
    intro c p t
    constructor
    · exact Or.inl
    · rintro (hb | ⟨ha, hb, -⟩)
      · exact hb
      · simp at hb
        omega
  | cons x rest ih =>
    intro sq bbs hlen
    match x with
    | none =>
      obtain ⟨bbs', h1, h2⟩ := ih (sq + 1) bbs (by simp at hlen ⊢; omega)
      refine ⟨bbs', ?_, ?_⟩
      · show placeCells rest (sq + 1) bbs = _
        rw [h1]
        have : sq + 1 + rest.length = sq + (none :: rest).length := by simp; omega
        rw [this]
      · intro c p t
        rw [h2 c p t]
        constructor
        · rintro (hb | ⟨ha, hb, hc⟩)
          · exact Or.inl hb
          · refine Or.inr ⟨by omega, by simp; omega, ?_⟩
            rw [show t - sq = (t - (sq + 1)) + 1 by omega]
            simpa using hc
        · rintro (hb | ⟨ha, hb, hc⟩)
          · exact Or.inl hb
          · by_cases h3 : t = sq
            · subst h3
              simp at hc
            · refine Or.inr ⟨by omega, by simp at hb; omega, ?_⟩
              rw [show t - sq = (t - (sq + 1)) + 1 by omega] at hc
              simpa using hc
    | some cp₀ =>
      have hsq : ¬(sq ≥ 64) := by simp at hlen; omega
      obtain ⟨bbs', h1, h2⟩ := ih (sq + 1)
        (updBB bbs cp₀.1 cp₀.2 (bbs cp₀.1 cp₀.2 ||| (1 <<< sq)))
        (by simp at hlen ⊢; omega)
      refine ⟨bbs', ?_, ?_⟩
      · show (if sq ≥ 64 then none else placeCells rest (sq + 1) _) = _
        rw [if_neg hsq, h1]
        have : sq + 1 + rest.length = sq + (some cp₀ :: rest).length := by simp; omega
        rw [this]
      · intro c p t
        rw [h2 c p t]
        have hupd : ((updBB bbs cp₀.1 cp₀.2 (bbs cp₀.1 cp₀.2 ||| (1 <<< sq)) c p).testBit t
            = true) ↔ ((bbs c p).testBit t = true ∨ (t = sq ∧ (c, p) = cp₀)) := by
          unfold updBB
          by_cases hcp : c = cp₀.1 ∧ p = cp₀.2
          · rw [if_pos hcp]
            rw [Nat.testBit_or]
            rw [Nat.shiftLeft_eq, one_mul, Nat.testBit_two_pow]
            obtain ⟨hc1, hp1⟩ := hcp
            subst hc1; subst hp1
            simp only [Bool.or_eq_true, decide_eq_true_eq]
            constructor
            · rintro (hb | hb)
              · exact Or.inl hb
              · exact Or.inr ⟨hb.symm, trivial⟩
            · rintro (hb | ⟨hb, -⟩)
              · exact Or.inl hb
              · exact Or.inr hb.symm
          · rw [if_neg hcp]
            constructor
            · exact Or.inl
            · rintro (hb | ⟨ha, hb⟩)
              · exact hb
              · exact absurd ⟨congrArg Prod.fst hb, congrArg Prod.snd hb⟩ hcp
        rw [hupd]
        constructor
        · rintro ((hb | ⟨ha, hb⟩) | ⟨ha, hb, hc⟩)
          · exact Or.inl hb
          · refine Or.inr ⟨by omega, by simp; omega, ?_⟩
            rw [ha]
            simp [hb]
          · refine Or.inr ⟨by omega, by simp at hb ⊢; omega, ?_⟩
            rw [show t - sq = (t - (sq + 1)) + 1 by omega]
            simpa using hc
        · rintro (hb | ⟨ha, hb, hc⟩)
          · exact Or.inl (Or.inl hb)
          · by_cases h3 : t = sq
            · subst h3
              simp at hc
              exact Or.inl (Or.inr ⟨rfl, hc.symm⟩)
            · refine Or.inr ⟨by omega, by simp at hb; omega, ?_⟩
              rw [show t - sq = (t - (sq + 1)) + 1 by omega] at hc
              simpa using hc

/-- getD_range_map: indexing a mapped range below its length applies the
function. -/
theorem getD_range_map {α : Type} (f : Nat → α) (n t : Nat) (d : α) (h : t < n) :
    ((List.range n).map f).getD t d = f t := by
  rw [List.getD_eq_getElem?_getD, List.getElem?_map, List.getElem?_range h]
  rfl

/-- bool_eq_decide: a boolean equals the decision of any proposition it is
equivalent to. -/
theorem bool_eq_decide (b : Bool) (p : Prop) [Decidable p] (h : b = true ↔ p) :
    b = decide p := by
  by_cases hp : p
  · simp [hp, h.mpr hp]
  · cases hb : b
    · simp [hp]
    · exact absurd (h.mp hb) hp

/-- find?_unique: a scan whose predicate holds exactly at one listed element finds
it. -/
theorem find?_unique {α : Type} [DecidableEq α] :
    ∀ (l : List α) (f : α → Bool) (a : α), a ∈ l → (∀ b ∈ l, f b = decide (b = a)) →
      l.find? f = some a := by
  intro l
  induction l with
  | nil => intro f a ha _; simp at ha
  | cons x xs ih =>
    intro f a ha hf
    by_cases hx : x = a
    · subst hx
      rw [List.find?_cons_of_pos]
      rw [hf x (by simp)]
      simp
    · rw [List.find?_cons_of_neg]
      · refine ih f a ?_ (fun b hb => hf b (List.mem_cons_of_mem _ hb))
        rcases List.mem_cons.mp ha with h1 | h1
        · exact absurd h1.symm hx
        · exact h1
      · rw [hf x (by simp)]
        simp [hx]

/-- flatten_renderCells: the eight rendered ranks joined in order list the cells of
all 64 squares. -/
theorem flatten_renderCells (cells : Nat → Option (Nat × Nat)) :
    ((List.range 8).map (renderCells cells)).flatten = (List.range 64).map cells := by
  rfl

/-- turn_roundtrip: parsing the rendered side-to-move field returns the side. -/
theorem turn_roundtrip (t : Nat) (h : t < 2) :
    (if (if t = 0 then ['w'] else ['b']) = ['w'] then 0 else 1) = t := by
  interval_cases t <;> decide

/-- castlingChars_only: the rendered castling field depends only on the castling
bits. -/
theorem castlingChars_only (st st' : State) (h : st.castling = st'.castling) :
    castlingChars st = castlingChars st' := by
  unfold castlingChars State.can_castle
  rw [h]

/-- castling_roundtrip: parsing the rendered castling field returns the four-bit
castling value. -/
theorem castling_roundtrip : ∀ cst, cst < 16 →
    ((if (castlingChars ⟨0, cst, none, none, 0, 0⟩).contains 'K' then State.WHITE_00
        else 0) |||
      (if (castlingChars ⟨0, cst, none, none, 0, 0⟩).contains 'Q' then State.WHITE_000
        else 0) |||
      (if (castlingChars ⟨0, cst, none, none, 0, 0⟩).contains 'k' then State.BLACK_00
        else 0) |||
      (if (castlingChars ⟨0, cst, none, none, 0, 0⟩).contains 'q' then State.BLACK_000
        else 0)) = cst := by
  decide

/-- pairOn_of_bits: a piece scan over bitboards that characterize a cell assignment
returns exactly that assignment. -/
theorem pairOn_of_bits (bbs : Nat → Nat → Nat) (cells : Nat → Option (Nat × Nat))
    (hwfc : ∀ sq, sq < 64 → ∀ cp, cells sq = some cp → cp.1 < 2 ∧ cp.2 < 6)
    (hbit : ∀ c p t, ((bbs c p).testBit t = true) ↔ (t < 64 ∧ cells t = some (c, p)))
    (sq : Nat) (hsq : sq < 64) :
    cpPairs.find? (fun cp => (bbs cp.1 cp.2).testBit sq) = cells sq := by
  cases hcell : cells sq with
  | none =>
    exact List.find?_eq_none.mpr (fun cp _ hb => by
      have hc := (hbit cp.1 cp.2 sq).mp hb
      rw [hcell] at hc
      exact Option.noConfusion hc.2)
  | some cp₀ =>
    have hwf₀ := hwfc sq hsq cp₀ hcell
    apply find?_unique cpPairs _ cp₀ (mem_cpPairs cp₀.1 hwf₀.1 cp₀.2 hwf₀.2)
    intro b _
    apply bool_eq_decide
    rw [hbit b.1 b.2 sq]
    constructor
    · rintro ⟨-, hc⟩
      rw [hcell] at hc
      exact (Option.some.inj hc).symm
    · rintro rfl
      exact ⟨hsq, hcell⟩

/-- fenBoardAux_eq: a position whose piece scan agrees with a cell assignment prints
the same placement field. -/
theorem fenBoardAux_eq (P : Position) (cells : Nat → Option (Nat × Nat))
    (hpair : ∀ sq, sq < 64 → Position.pairOn P sq = cells sq) :
    ∀ n, n ≤ 8 → fenBoardAux P n = renderBoardAux cells n := by
  intro n
  induction n with
  | zero => intro _; rfl
  | succ n ih =>
    intro hn
    unfold fenBoardAux renderBoardAux
    rw [ih (by omega)]
    have hcells : fenCells P n = renderCells cells n := by
      unfold fenCells renderCells
      apply List.map_congr_left
      intro f hf
      exact hpair (n * 8 + f) (by have := List.mem_range.mp hf; omega)
    rw [hcells]

/-- C8: FEN round trip — for every wellformed FEN record, parsing its normalized
rendering (placement with empty runs compacted as digits, `w`/`b` side, `KQkq`
castling with `-` for no rights, `-` for no en-passant square, decimal counters)
succeeds, and serializing the resulting position with `Position::fen` yields the
rendered input string again, character for character. -/
theorem fen_roundtrip (r : FenRec) (h : FenWf r) :
    ∃ P, Position.from_str (renderFen r) = .ok P ∧ P.fen = renderFen r := by
  obtain ⟨ht2, hc16, hwfc, hking0, hking1, hepwf⟩ := h
  have hsplit : splitCh ' ' (renderFen r).data =
      [renderBoardAux r.cells 8, if r.turn = 0 then ['w'] else ['b'],
        castlingChars (stOf r), epChars (stOf r), natToChars r.hm,
        natToChars r.fm] :=
    splitCh_renderFen r ⟨ht2, hc16, hwfc, hking0, hking1, hepwf⟩
  have hboard := splitCh_renderBoardAux r ⟨ht2, hc16, hwfc, hking0, hking1, hepwf⟩ 8
    le_rfl (by omega)
  obtain ⟨bbsF, hplace, hchar⟩ :=
    placeCells_spec ((List.range 64).map r.cells) 0 (fun _ _ => 0) (by simp)
  have hplace' : placeCells ((List.range 64).map r.cells) 0 (fun _ _ => 0) =
      some (bbsF, 64) := by
    rw [hplace]
    norm_num
  have hbit : ∀ c p t, ((bbsF c p).testBit t = true) ↔
      (t < 64 ∧ r.cells t = some (c, p)) := by
    intro c p t
    rw [hchar c p t]
    constructor
    · rintro (hb | ⟨h1, h2, h3⟩)
      · simp [Nat.zero_testBit] at hb
      · have ht64 : t < 64 := by simp at h2; omega
        refine ⟨ht64, ?_⟩
        rw [show t - 0 = t from by omega] at h3
        rw [getD_range_map r.cells 64 t none ht64] at h3
        exact h3
    · rintro ⟨h1, h2⟩
      refine Or.inr ⟨by omega, by simp; omega, ?_⟩
      rw [show t - 0 = t from by omega]
      rw [getD_range_map r.cells 64 t none h1]
      exact h2
  have hk0 : bbsF 0 5 ≠ 0 := by
    obtain ⟨s, hs64, hcell⟩ := hking0
    intro h0
    have hb := (hbit 0 5 s).mpr ⟨hs64, hcell⟩
    rw [h0] at hb
    simp [Nat.zero_testBit] at hb
  have hk1 : bbsF 1 5 ≠ 0 := by
    obtain ⟨s, hs64, hcell⟩ := hking1
    intro h0
    have hb := (hbit 1 5 s).mpr ⟨hs64, hcell⟩
    rw [h0] at hb
    simp [Nat.zero_testBit] at hb
  have hparse : parseRanksChars
      (splitCh '/' ((splitCh ' ' (renderFen r).data).headD [])).reverse 0
      (fun _ _ => 0) = some (bbsF, 64) := by
    rw [hsplit]
    simp only [List.headD_cons]
    rw [hboard, List.reverse_reverse]
    rw [show (List.range 8).map (fun i => fenRankAux (renderCells r.cells i) 0) =
        ((List.range 8).map (renderCells r.cells)).map (fun cl => fenRankAux cl 0)
      from by rw [List.map_map]; rfl]
    rw [parseRanks_fenRanks ((List.range 8).map (renderCells r.cells)) 0 _ ?side]
    case side =>
      intro cl hcl
      rcases List.mem_map.mp hcl with ⟨i, hi, hEq⟩
      subst hEq
      exact ⟨renderCells_wf r ⟨ht2, hc16, hwfc, hking0, hking1, hepwf⟩ i
        (List.mem_range.mp hi), by simp [renderCells]⟩
    rw [flatten_renderCells, hplace']
  have hep : (if epChars (stOf r) ≠ ['-'] then
        match sqFromChars (epChars (stOf r)) with
        | some s => POut.ok (some s)
        | none => POut.panicked "invalid square"
      else POut.ok (none : Option Nat)) = POut.ok r.ep := by
    cases hepv : r.ep with
    | none =>
      have he : epChars (stOf r) = ['-'] := by
        show (match r.ep with
          | some s => squareChars s
          | none => ['-']) = ['-']
        rw [hepv]
      rw [he]
      simp
    | some s =>
      have hs64 := hepwf s hepv
      have he : epChars (stOf r) = squareChars s := by
        show (match r.ep with
          | some s => squareChars s
          | none => ['-']) = squareChars s
        rw [hepv]
      rw [he]
      rw [if_pos (squareChars_spec s hs64).2.1]
      rw [(squareChars_spec s hs64).2.2]
  have hhm : (if natToChars r.hm ≠ ['-'] then
        match parseNatChars (natToChars r.hm) with
        | some n => POut.ok n
        | none => POut.panicked "invalid number"
      else POut.ok 0) = POut.ok r.hm := by
    rw [if_pos (natToChars_ne_dash r.hm), parseNat_natToChars]
  have hfm : (if natToChars r.fm ≠ ['-'] then
        match parseNatChars (natToChars r.fm) with
        | some n => POut.ok n
        | none => POut.panicked "invalid number"
      else POut.ok 0) = POut.ok r.fm := by
    rw [if_pos (natToChars_ne_dash r.fm), parseNat_natToChars]
  have hcastval : ((if (castlingChars (stOf r)).contains 'K' then State.WHITE_00
        else 0) |||
      (if (castlingChars (stOf r)).contains 'Q' then State.WHITE_000 else 0) |||
      (if (castlingChars (stOf r)).contains 'k' then State.BLACK_00 else 0) |||
      (if (castlingChars (stOf r)).contains 'q' then State.BLACK_000 else 0)) =
      r.castling := by
    rw [castlingChars_only (stOf r) ⟨0, r.castling, none, none, 0, 0⟩ rfl]
    exact castling_roundtrip r.castling hc16
  refine ⟨Position.update_checks
    { Position.new with
      pieces_bb := bbsF,
      history := updHist (fun _ => State.new) 0 (stOf r) }, ?_, ?_⟩
  · simp only [Position.from_str, fromStrChars, hparse]
    rw [if_neg (not_or.mpr ⟨hk0, hk1⟩)]
    have hsplit' : splitCh ' ' (String.data (renderFen r)) =
        [renderBoardAux r.cells 8, if r.turn = 0 then ['w'] else ['b'],
          castlingChars (stOf r), epChars (stOf r), natToChars r.hm,
          natToChars r.fm] := hsplit
    rw [hsplit']
    simp only [fromStrFields]
    rw [if_neg (by norm_num)]
    simp only [List.getD_cons_succ, List.getD_cons_zero]
    rw [hep]
    simp only [poutBind]
    rw [hhm]
    simp only [poutBind]
    rw [hfm]
    simp only [poutBind]
    rw [turn_roundtrip r.turn ht2, hcastval]
    rfl
  · have hpair : ∀ sq, sq < 64 →
        Position.pairOn (Position.update_checks
          { Position.new with
            pieces_bb := bbsF,
            history := updHist (fun _ => State.new) 0 (stOf r) }) sq = r.cells sq := by
      intro sq hsq
      exact pairOn_of_bits bbsF r.cells hwfc hbit sq hsq
    have hchars : Position.fenChars (Position.update_checks
        { Position.new with
          pieces_bb := bbsF,
          history := updHist (fun _ => State.new) 0 (stOf r) }) = renderFenChars r := by
      simp only [Position.fenChars]
      have hst : (Position.update_checks
          { Position.new with
            pieces_bb := bbsF,
            history := updHist (fun _ => State.new) 0 (stOf r) }).actual_state =
          stOf r := rfl
      rw [hst]
      rw [fenBoardAux_eq _ r.cells hpair 8 le_rfl]
      rfl
    exact congrArg String.mk hchars

/-- fen_roundtrip_witness: the C8 theorem applied to the starting-position record,
whose wellformedness is checked by evaluation. -/
theorem fen_roundtrip_witness :
    ∃ P, Position.from_str (renderFen fenRecStart) = .ok P ∧
      P.fen = renderFen fenRecStart := by
  have hdec : ∀ sq, sq < 64 → (match fenRecStart.cells sq with
      | some cp => decide (cp.1 < 2 ∧ cp.2 < 6)
      | none => true) = true := by decide
  refine fen_roundtrip fenRecStart
    ⟨by decide, by decide, ?_, by decide, by decide, ?_⟩
  · intro sq hsq cp hcp
    have h1 := hdec sq hsq
    rw [hcp] at h1
    exact of_decide_eq_true h1
  · intro s hs
    exact Option.noConfusion hs

end TC
